import Mathlib

/-!
# Verification of the hybrid retrieval engine core

Shallow embedding of the vector layer (`HNSWLibAdapter` of
`src/doc/UAA-Implementation-Guide.md`), the generation manager
(`WindowsSafeVectorManagerFixed` of `src/unnamed/part_006`), the enhanced
query engine (`src/json-rag/core/query-engine-enhanced.js`) and the SQLite
index adapters (`src/json-rag/adapters/index/sqlite-index-adapter.js`),
together with theorems settling the spec claims about them.

JavaScript `Map`s are embedded as association lists (`List (K × V)`) whose
`set` updates an existing key in place and appends a fresh key at the end,
matching insertion-order semantics.  Numbers are embedded as `ℚ`.
-/

set_option autoImplicit false

namespace RagCore

/-- Lookup in an association list (the embedding of `Map.get`). -/
def mget {K V : Type} [DecidableEq K] : List (K × V) → K → Option V
  | [], _ => none
  | (k, v) :: rest, key => if k = key then some v else mget rest key

/-- `Map.set k v`: update the entry in place if the key is present,
otherwise append it (JavaScript `Map` insertion-order semantics). -/
def mset {K V : Type} [DecidableEq K] : List (K × V) → K → V → List (K × V)
  | [], key, v => [(key, v)]
  | (k, w) :: rest, key, v =>
      if k = key then (k, v) :: rest else (k, w) :: mset rest key v

/-- `Map.delete k`: remove the entry with the given key. -/
def mdel {K V : Type} [DecidableEq K] : List (K × V) → K → List (K × V)
  | [], _ => []
  | (k, w) :: rest, key =>
      if k = key then mdel rest key else (k, w) :: mdel rest key

@[simp] theorem mget_nil {K V : Type} [DecidableEq K] (key : K) :
    mget ([] : List (K × V)) key = none := rfl

@[simp] theorem mget_cons {K V : Type} [DecidableEq K] (k key : K) (v : V)
    (rest : List (K × V)) :
    mget ((k, v) :: rest) key = if k = key then some v else mget rest key := rfl

theorem mget_mset {K V : Type} [DecidableEq K] (m : List (K × V)) (k k' : K) (v : V) :
    mget (mset m k v) k' = if k = k' then some v else mget m k' := by
  induction m with
  | nil => by_cases h : k = k' <;> simp [mset, mget, h]
  | cons p rest ih =>
      obtain ⟨pk, pv⟩ := p
      by_cases hp : pk = k
      · subst hp
        by_cases h : pk = k' <;> simp [mset, mget, h]
      · by_cases h : pk = k'
        · subst h
          have hk : k ≠ pk := fun hh => hp hh.symm
          simp [mset, hp, mget, ih, hk]
        · simp [mset, hp, mget, h, ih]

theorem mget_mdel {K V : Type} [DecidableEq K] (m : List (K × V)) (k k' : K) :
    mget (mdel m k) k' = if k = k' then none else mget m k' := by
  induction m with
  | nil => simp [mdel]
  | cons p rest ih =>
      obtain ⟨pk, pv⟩ := p
      by_cases hp : pk = k
      · subst hp
        by_cases h : pk = k'
        · subst h; simp [mdel, mget, ih]
        · simp [mdel, mget, h, ih]
      · by_cases h : pk = k'
        · subst h
          have hk : k ≠ pk := fun hh => hp hh.symm
          simp [mdel, hp, mget, hk]
        · simp [mdel, hp, mget, h, ih]

/-- Membership of a key among the entries. -/
theorem mget_isSome_of_mem {K V : Type} [DecidableEq K] {m : List (K × V)}
    {p : K × V} (hp : p ∈ m) : (mget m p.1).isSome := by
  induction m with
  | nil => cases hp
  | cons q rest ih =>
      obtain ⟨qk, qv⟩ := q
      rcases List.mem_cons.mp hp with h | h
      · subst h; simp [mget]
      · by_cases hk : qk = p.1
        · simp [mget, hk]
        · simpa [mget, hk] using ih h

theorem mem_of_mget {K V : Type} [DecidableEq K] {m : List (K × V)} {k : K} {v : V}
    (h : mget m k = some v) : (k, v) ∈ m := by
  induction m with
  | nil => simp [mget] at h
  | cons q rest ih =>
      obtain ⟨qk, qv⟩ := q
      by_cases hk : qk = k
      · subst hk
        simp [mget] at h
        subst h
        exact List.mem_cons_self _ _
      · simp [mget, hk] at h
        exact List.mem_cons_of_mem _ (ih h)

theorem mget_eq_some_of_mem_nodup {K V : Type} [DecidableEq K] {m : List (K × V)}
    {p : K × V} (hp : p ∈ m) (hnd : (m.map Prod.fst).Nodup) :
    mget m p.1 = some p.2 := by
  induction m with
  | nil => cases hp
  | cons q rest ih =>
      obtain ⟨qk, qv⟩ := q
      simp only [List.map_cons, List.nodup_cons] at hnd
      rcases List.mem_cons.mp hp with h | h
      · subst h; simp [mget]
      · have hne : qk ≠ p.1 := by
          intro hh
          exact hnd.1 (hh ▸ (List.mem_map.mpr ⟨p, h, rfl⟩))
        simp [mget, hne]
        exact ih h hnd.2

theorem mem_mset_elim {K V : Type} [DecidableEq K] {m : List (K × V)} {k : K} {v : V}
    {p : K × V} (hp : p ∈ mset m k v) : p = (k, v) ∨ p ∈ m := by
  induction m with
  | nil => simpa [mset] using hp
  | cons q rest ih =>
      obtain ⟨qk, qv⟩ := q
      by_cases hk : qk = k
      · subst hk
        simp only [mset, if_pos rfl] at hp
        rcases List.mem_cons.mp hp with h | h
        · exact Or.inl h
        · exact Or.inr (List.mem_cons_of_mem _ h)
      · simp only [mset, if_neg hk] at hp
        rcases List.mem_cons.mp hp with h | h
        · exact Or.inr (h ▸ List.mem_cons_self _ _)
        · rcases ih h with h' | h'
          · exact Or.inl h'
          · exact Or.inr (List.mem_cons_of_mem _ h')

theorem mem_mset_intro {K V : Type} [DecidableEq K] {m : List (K × V)} {k : K} {v : V}
    {p : K × V} (hp : p ∈ m) (hne : p.1 ≠ k) : p ∈ mset m k v := by
  induction m with
  | nil => cases hp
  | cons q rest ih =>
      obtain ⟨qk, qv⟩ := q
      by_cases hk : qk = k
      · subst hk
        simp only [mset, if_pos rfl]
        rcases List.mem_cons.mp hp with h | h
        · exact absurd (by rw [h]) hne
        · exact List.mem_cons_of_mem _ h
      · simp only [mset, if_neg hk]
        rcases List.mem_cons.mp hp with h | h
        · exact h ▸ List.mem_cons_self _ _
        · exact List.mem_cons_of_mem _ (ih h)

theorem self_mem_mset {K V : Type} [DecidableEq K] (m : List (K × V)) (k : K) (v : V) :
    (k, v) ∈ mset m k v := by
  induction m with
  | nil => simp [mset]
  | cons q rest ih =>
      obtain ⟨qk, qv⟩ := q
      by_cases hk : qk = k
      · subst hk; simp [mset]
      · simp only [mset, if_neg hk]
        exact List.mem_cons_of_mem _ ih

@[simp] theorem mdel_cons_self {K V : Type} [DecidableEq K] (k : K) (v : V)
    (rest : List (K × V)) : mdel ((k, v) :: rest) k = mdel rest k := by
  simp [mdel]

theorem mdel_cons_ne {K V : Type} [DecidableEq K] {k k' : K} (v : V)
    (rest : List (K × V)) (h : k' ≠ k) :
    mdel ((k', v) :: rest) k = (k', v) :: mdel rest k := by
  simp [mdel, h]

theorem mem_mdel {K V : Type} [DecidableEq K] {m : List (K × V)} {k : K}
    {p : K × V} : p ∈ mdel m k ↔ p ∈ m ∧ p.1 ≠ k := by
  induction m with
  | nil => simp [mdel]
  | cons q rest ih =>
      obtain ⟨qk, qv⟩ := q
      by_cases hk : qk = k
      · subst hk
        rw [mdel_cons_self, ih]
        constructor
        · rintro ⟨h1, h2⟩; exact ⟨List.mem_cons_of_mem _ h1, h2⟩
        · rintro ⟨h1, h2⟩
          rcases List.mem_cons.mp h1 with h | h
          · exact absurd (by rw [h]) h2
          · exact ⟨h, h2⟩
      · rw [mdel_cons_ne _ _ hk]
        constructor
        · intro h
          rcases List.mem_cons.mp h with h | h
          · refine ⟨List.mem_cons.mpr (Or.inl h), ?_⟩
            rw [h]; exact hk
          · rcases ih.mp h with ⟨h1, h2⟩
            exact ⟨List.mem_cons_of_mem _ h1, h2⟩
        · rintro ⟨h1, h2⟩
          rcases List.mem_cons.mp h1 with h | h
          · exact h ▸ List.mem_cons_self _ _
          · exact List.mem_cons_of_mem _ (ih.mpr ⟨h, h2⟩)

theorem keys_mset_nodup {K V : Type} [DecidableEq K] {m : List (K × V)} (k : K) (v : V)
    (hnd : (m.map Prod.fst).Nodup) : ((mset m k v).map Prod.fst).Nodup := by
  induction m with
  | nil => simp [mset]
  | cons q rest ih =>
      obtain ⟨qk, qv⟩ := q
      simp only [List.map_cons, List.nodup_cons] at hnd
      by_cases hk : qk = k
      · subst hk
        simpa [mset] using hnd
      · simp only [mset, if_neg hk, List.map_cons, List.nodup_cons]
        refine ⟨?_, ih hnd.2⟩
        intro hmem
        rcases List.mem_map.mp hmem with ⟨p, hp, hpk⟩
        rcases mem_mset_elim hp with h | h
        · rw [h] at hpk; exact hk hpk.symm
        · exact hnd.1 (hpk ▸ List.mem_map.mpr ⟨p, h, rfl⟩)

theorem keys_mdel_nodup {K V : Type} [DecidableEq K] {m : List (K × V)} (k : K)
    (hnd : (m.map Prod.fst).Nodup) : ((mdel m k).map Prod.fst).Nodup := by
  induction m with
  | nil => simp [mdel]
  | cons q rest ih =>
      obtain ⟨qk, qv⟩ := q
      simp only [List.map_cons, List.nodup_cons] at hnd
      by_cases hk : qk = k
      · simp only [mdel, if_pos hk]
        exact ih hnd.2
      · simp only [mdel, if_neg hk, List.map_cons, List.nodup_cons]
        refine ⟨?_, ih hnd.2⟩
        intro hmem
        rcases List.mem_map.mp hmem with ⟨p, hp, hpk⟩
        exact hnd.1 (hpk ▸ List.mem_map.mpr ⟨p, (mem_mdel.mp hp).1, rfl⟩)

/-! ## Stable insertion sort

`Array.prototype.sort` with comparator `(a, b) => b.fusedScore - a.fusedScore`
is a stable descending sort on the key; SQL `ORDER BY label` is an ascending
sort.  Both are embedded as insertion sorts. -/

/-- Insert into a descending-sorted list (stable: an element is placed in
front of elements with an equal key, matching a stable sort where it came
earlier in the input). -/
def insertDesc {α : Type} (key : α → ℚ) (x : α) : List α → List α
  | [] => [x]
  | y :: ys => if key y ≤ key x then x :: y :: ys else y :: insertDesc key x ys

/-- Sort a list so that keys are non-increasing. -/
def sortDesc {α : Type} (key : α → ℚ) : List α → List α
  | [] => []
  | x :: xs => insertDesc key x (sortDesc key xs)

/-- Insert into an ascending-sorted list keyed by a natural number. -/
def insertAsc {α : Type} (key : α → ℕ) (x : α) : List α → List α
  | [] => [x]
  | y :: ys => if key x ≤ key y then x :: y :: ys else y :: insertAsc key x ys

/-- Sort a list so that keys are non-decreasing (SQL `ORDER BY`). -/
def sortAsc {α : Type} (key : α → ℕ) : List α → List α
  | [] => []
  | x :: xs => insertAsc key x (sortAsc key xs)

theorem mem_insertDesc {α : Type} (key : α → ℚ) (x b : α) (l : List α) :
    b ∈ insertDesc key x l ↔ b = x ∨ b ∈ l := by
  induction l with
  | nil => simp [insertDesc]
  | cons y ys ih =>
      by_cases h : key y ≤ key x
      · simp [insertDesc, if_pos h]
      · simp only [insertDesc, if_neg h, List.mem_cons, ih]
        tauto

theorem pairwise_insertDesc {α : Type} (key : α → ℚ) (x : α) {l : List α}
    (hl : l.Pairwise (fun a b => key b ≤ key a)) :
    (insertDesc key x l).Pairwise (fun a b => key b ≤ key a) := by
  induction l with
  | nil => simp [insertDesc]
  | cons y ys ih =>
      rcases List.pairwise_cons.mp hl with ⟨hy, hys⟩
      by_cases h : key y ≤ key x
      · simp only [insertDesc, if_pos h, List.pairwise_cons]
        constructor
        · intro b hb
          rcases List.mem_cons.mp hb with hb | hb
          · rw [hb]; exact h
          · exact le_trans (hy b hb) h
        · exact ⟨hy, hys⟩
      · simp only [insertDesc, if_neg h, List.pairwise_cons]
        refine ⟨?_, ih hys⟩
        intro b hb
        rcases (mem_insertDesc key x b ys).mp hb with hb' | hb'
        · rw [hb']; exact le_of_not_le h
        · exact hy b hb'

theorem sortDesc_pairwise {α : Type} (key : α → ℚ) (l : List α) :
    (sortDesc key l).Pairwise (fun a b => key b ≤ key a) := by
  induction l with
  | nil => simp [sortDesc]
  | cons x xs ih => exact pairwise_insertDesc key x ih

/-! ## VectorSidecarStore (`adapters/index/sidecar-store.js`,
`src/json-rag/demos/json-rag-showcase.js` lines 319–600)

The store keeps a `vectors` table (`doc_id` PRIMARY KEY, `label` UNIQUE) and a
`mappings` table with the same keys; every write path touches both inside one
transaction, so the model keeps a single row list.  `INSERT OR REPLACE`
deletes every row that conflicts on either unique column before inserting. -/

/-- One row of the sidecar `vectors`/`mappings` tables (the `metadata`,
`model_version` and timestamp columns play no role in any claim and are
omitted). -/
structure SidecarRow where
  doc_id : String
  label : ℕ
  vec : List ℚ
  deriving DecidableEq, Repr

/-- `saveVector`'s transactional `INSERT OR REPLACE` (dimension check is done
by the caller model): SQLite REPLACE removes rows conflicting on the
`doc_id` primary key or the `label` UNIQUE column, then inserts. -/
def sidecarSave : List SidecarRow → String → ℕ → List ℚ → List SidecarRow
  | [], d, l, v => [⟨d, l, v⟩]
  | r :: rest, d, l, v =>
      if r.doc_id = d ∨ r.label = l then sidecarSave rest d l v
      else r :: sidecarSave rest d l v

/-- `removeVector`: transactional delete from both tables by `doc_id`. -/
def sidecarRemove : List SidecarRow → String → List SidecarRow
  | [], _ => []
  | r :: rest, d =>
      if r.doc_id = d then sidecarRemove rest d else r :: sidecarRemove rest d

/-- `getVector`: first row with the given `doc_id`. -/
def sidecarGet : List SidecarRow → String → Option SidecarRow
  | [], _ => none
  | r :: rest, d => if r.doc_id = d then some r else sidecarGet rest d

/-- `getAllMappings`: `SELECT doc_id, label FROM mappings ORDER BY label`. -/
def sidecarAllMappings (rows : List SidecarRow) : List (String × ℕ) :=
  sortAsc (fun p => p.2) (rows.map fun r => (r.doc_id, r.label))

/-! ## HNSWLibAdapter (`src/doc/UAA-Implementation-Guide.md` lines 700–1650)

The adapter holds the in-memory bijections `docIdToLabel`/`labelToDocId`, the
monotone `nextLabel` counter, the HNSW graph (points, tombstone marks,
capacity) and the sidecar store.  JavaScript exceptions propagate but leave
already-performed mutations in place, so every fallible operation returns the
(possibly mutated) state together with an optional error. -/

/-- The configured distance space (`'ip' | 'cosine' | 'l2'`). -/
inductive Space
  | ip
  | cosine
  | l2
  deriving DecidableEq, Repr

structure AdapterConfig where
  dimensions : ℕ
  space : Space
  maxElements : ℕ
  deriving Repr

/-- Errors thrown by the vector layer. -/
inductive VError
  | dimensionMismatch
  | zeroVector
  | hnswAddFailed
  | sidecarFailed
  deriving DecidableEq, Repr

structure AdapterState where
  docIdToLabel : List (String × ℕ)
  labelToDocId : List (ℕ × String)
  nextLabel : ℕ
  /-- labels inserted into the HNSW graph with their vectors, in order. -/
  hnswPoints : List (ℕ × List ℚ)
  /-- labels passed to `markDeleted`. -/
  hnswDeleted : List ℕ
  /-- current `maxElements` capacity of the graph. -/
  hnswMax : ℕ
  sidecar : List SidecarRow
  isDirty : Bool
  deriving Repr

/-- The empty adapter state right after `createNewIndex`. -/
def initialState (cfg : AdapterConfig) : AdapterState :=
  { docIdToLabel := [], labelToDocId := [], nextLabel := 0,
    hnswPoints := [], hnswDeleted := [], hnswMax := cfg.maxElements,
    sidecar := [], isDirty := false }

/-- `Σ vᵢ²`; the squared Euclidean norm.  The source computes
`norm = Math.sqrt(vector.reduce((s, x) => s + x*x, 0))` and tests
`norm === 0`; since `√s = 0 ↔ s = 0` for `s ≥ 0`, the model tests the
square, which keeps every number rational. -/
def sumSq (v : List ℚ) : ℚ := (v.map fun x => x * x).sum

/-- The guard `Math.abs(norm - 1.0) > 0.01` of the inner-product
normalization, expressed on the squared norm: for `s ≥ 0`,
`|√s − 1| > 1/100 ↔ s < (99/100)² ∨ (101/100)² < s`. -/
def needsNormalize (cfg : AdapterConfig) (s : ℚ) : Prop :=
  cfg.space = Space.ip ∧ (s < 9801 / 10000 ∨ 10201 / 10000 < s)

instance (cfg : AdapterConfig) (s : ℚ) : Decidable (needsNormalize cfg s) := by
  unfold needsNormalize; infer_instance

/--
`upsertEmbedding(docId, vector, metadata)` (guide lines 979–1059).

* `normFn` stands for the in-place normalization `vector[i] /= norm`
  (division by `√(Σvᵢ²)` is irrational in general, so the normalized vector
  is a parameter of the model; it is applied exactly when the source applies
  it).
* `failHnsw` / `failSidecar` inject a failure of the awaited
  `index.addPoint` call resp. of the `sidecar.saveVector` transaction;
  mutations performed before the failing call persist, as in JavaScript.
-/
def upsertEmbedding (cfg : AdapterConfig) (normFn : List ℚ → List ℚ)
    (failHnsw failSidecar : Bool) (st : AdapterState) (docId : String)
    (vec : List ℚ) : AdapterState × Option VError :=
  -- dimension validation
  if vec.length ≠ cfg.dimensions then (st, some VError.dimensionMismatch)
  -- zero-vector check (before any mutation, for every space)
  else if sumSq vec = 0 then (st, some VError.zeroVector)
  else
    -- automatic normalization for the inner-product space
    let v := if needsNormalize cfg (sumSq vec) then normFn vec else vec
    -- capacity check: double `maxElements` when `count ≥ 0.8 · max`
    let grownMax :=
      if 8 * st.hnswMax ≤ 10 * st.hnswPoints.length then 2 * st.hnswMax
      else st.hnswMax
    -- update handling: a fresh label is always taken from `nextLabel++`
    let label := st.nextLabel
    let st1 : AdapterState :=
      match mget st.docIdToLabel docId with
      | some existingLabel =>
          { st with
            hnswDeleted := st.hnswDeleted ++ [existingLabel],
            hnswMax := grownMax,
            labelToDocId :=
              mset (mdel st.labelToDocId existingLabel) label docId,
            docIdToLabel := mset st.docIdToLabel docId label,
            nextLabel := st.nextLabel + 1 }
      | none =>
          { st with
            hnswMax := grownMax,
            docIdToLabel := mset st.docIdToLabel docId label,
            labelToDocId := mset st.labelToDocId label docId,
            nextLabel := st.nextLabel + 1 }
    -- `await this.index.addPoint(arrayVector, label)`
    if failHnsw then (st1, some VError.hnswAddFailed)
    else
      let st2 := { st1 with hnswPoints := st1.hnswPoints ++ [(label, v)] }
      -- `this.sidecar.saveVector(docId, label, vector, metadata)`
      if v.length ≠ cfg.dimensions then (st2, some VError.dimensionMismatch)
      else if failSidecar then (st2, some VError.sidecarFailed)
      else
        ({ st2 with
           sidecar := sidecarSave st2.sidecar docId label v,
           isDirty := true }, none)

/-- `deleteEmbedding(docId)` (guide lines 1232–1249). -/
def deleteEmbedding (st : AdapterState) (docId : String) : AdapterState :=
  match mget st.docIdToLabel docId with
  | none => st
  | some label =>
      { st with
        docIdToLabel := mdel st.docIdToLabel docId,
        labelToDocId := mdel st.labelToDocId label,
        sidecar := sidecarRemove st.sidecar docId,
        isDirty := true }

/-- `clear()` (guide lines 1565–1588): fresh index, empty maps,
`nextLabel = 0`, empty sidecar. -/
def clearAdapter (cfg : AdapterConfig) (_st : AdapterState) : AdapterState :=
  { docIdToLabel := [], labelToDocId := [], nextLabel := 0,
    hnswPoints := [], hnswDeleted := [], hnswMax := cfg.maxElements,
    sidecar := [], isDirty := true }

/-- Accumulator of the `rebuildIndex` loop (guide lines 1440–1505): the new
maps and index are built on the side while the sidecar is updated in place. -/
structure RebuildAcc where
  d2l : List (String × ℕ)
  l2d : List (ℕ × String)
  points : List (ℕ × List ℚ)
  n : ℕ
  sidecar : List SidecarRow

/-- One iteration of the rebuild loop for a `doc_id` taken from the
`getAllMappings` snapshot: skip if the vector row is gone, otherwise insert
under the next dense label and rewrite the sidecar row. -/
def rebuildStep (acc : RebuildAcc) (docId : String) : RebuildAcc :=
  match sidecarGet acc.sidecar docId with
  | none => acc
  | some row =>
      { d2l := mset acc.d2l docId acc.n,
        l2d := mset acc.l2d acc.n docId,
        points := acc.points ++ [(acc.n, row.vec)],
        n := acc.n + 1,
        sidecar := sidecarSave acc.sidecar docId acc.n row.vec }

/-- `rebuildIndex` (guide lines 1440–1505), up to the final `saveIndex`
call, which does not touch the bijections (persistence is modeled at the
generation-manager level). -/
def rebuildIndex (cfg : AdapterConfig) (st : AdapterState) : AdapterState :=
  let mappings := sidecarAllMappings st.sidecar
  let acc :=
    mappings.foldl (fun a p => rebuildStep a p.1)
      ⟨[], [], [], 0, st.sidecar⟩
  { docIdToLabel := acc.d2l, labelToDocId := acc.l2d, nextLabel := acc.n,
    hnswPoints := acc.points, hnswDeleted := [], hnswMax := cfg.maxElements,
    sidecar := acc.sidecar, isDirty := st.isDirty }

/-! ## The bijection invariant -/

/-- The two in-memory maps are mutual inverses — every `doc_id` entry's label
maps back to the same `doc_id` and vice versa, with no duplicated keys — and
every mapped label is strictly below `next`. -/
def MapsInv (d2l : List (String × ℕ)) (l2d : List (ℕ × String)) (next : ℕ) :
    Prop :=
  (∀ p ∈ d2l, mget l2d p.2 = some p.1 ∧ p.2 < next) ∧
  (∀ q ∈ l2d, mget d2l q.2 = some q.1) ∧
  (d2l.map Prod.fst).Nodup ∧ (l2d.map Prod.fst).Nodup

instance (d2l : List (String × ℕ)) (l2d : List (ℕ × String)) (next : ℕ) :
    Decidable (MapsInv d2l l2d next) := by
  unfold MapsInv; infer_instance

/-- The bijection invariant of an adapter state. -/
def StateInv (st : AdapterState) : Prop :=
  MapsInv st.docIdToLabel st.labelToDocId st.nextLabel

instance (st : AdapterState) : Decidable (StateInv st) := by
  unfold StateInv; infer_instance

theorem mem_mset_nodup {K V : Type} [DecidableEq K] {m : List (K × V)}
    {k : K} {v : V} {p : K × V} (hnd : (m.map Prod.fst).Nodup)
    (hp : p ∈ mset m k v) : p = (k, v) ∨ (p ∈ m ∧ p.1 ≠ k) := by
  induction m with
  | nil =>
      simp only [mset] at hp
      exact Or.inl (List.mem_singleton.mp hp)
  | cons q rest ih =>
      obtain ⟨qk, qv⟩ := q
      simp only [List.map_cons, List.nodup_cons] at hnd
      by_cases hk : qk = k
      · subst hk
        simp only [mset, if_pos rfl] at hp
        rcases List.mem_cons.mp hp with h | h
        · exact Or.inl h
        · refine Or.inr ⟨List.mem_cons_of_mem _ h, ?_⟩
          intro hpk
          exact hnd.1 (hpk ▸ List.mem_map.mpr ⟨p, h, rfl⟩)
      · simp only [mset, if_neg hk] at hp
        rcases List.mem_cons.mp hp with h | h
        · refine Or.inr ⟨h ▸ List.mem_cons_self _ _, ?_⟩
          rw [h]; exact hk
        · rcases ih hnd.2 h with h' | h'
          · exact Or.inl h'
          · exact Or.inr ⟨List.mem_cons_of_mem _ h'.1, h'.2⟩

/-- Inserting a fresh `doc_id` under the label `n` (both the new-document
branch of `upsertEmbedding` and one `rebuildIndex` iteration). -/
theorem MapsInv_insert_fresh {d2l : List (String × ℕ)}
    {l2d : List (ℕ × String)} {n : ℕ} {d : String}
    (hinv : MapsInv d2l l2d n) (hfresh : mget d2l d = none) :
    MapsInv (mset d2l d n) (mset l2d n d) (n + 1) := by
  obtain ⟨h1, h2, h3, h4⟩ := hinv
  refine ⟨?_, ?_, keys_mset_nodup _ _ h3, keys_mset_nodup _ _ h4⟩
  · intro p hp
    rcases mem_mset_nodup h3 hp with h | ⟨hmem, hne⟩
    · subst h
      simp [mget_mset]
    · obtain ⟨hback, hlt⟩ := h1 p hmem
      have hne' : n ≠ p.2 := fun hh => absurd (hh ▸ hlt) (lt_irrefl _)
      rw [mget_mset, if_neg hne']
      exact ⟨hback, Nat.lt_succ_of_lt hlt⟩
  · intro q hq
    rcases mem_mset_nodup h4 hq with h | ⟨hmem, hne⟩
    · subst h
      simp [mget_mset]
    · have hback := h2 q hmem
      have hne' : d ≠ q.2 := by
        intro hh
        rw [← hh] at hback
        rw [hfresh] at hback
        cases hback
      rw [mget_mset, if_neg hne']
      exact hback

/-- The new-label branch of `upsertEmbedding` for an already-mapped
`doc_id`: the old label leaves `labelToDocId`, the fresh label `n` enters
both maps. -/
theorem MapsInv_update_existing {d2l : List (String × ℕ)}
    {l2d : List (ℕ × String)} {n L : ℕ} {d : String}
    (hinv : MapsInv d2l l2d n) (hex : mget d2l d = some L) :
    MapsInv (mset d2l d n) (mset (mdel l2d L) n d) (n + 1) := by
  obtain ⟨h1, h2, h3, h4⟩ := hinv
  have hdL : (d, L) ∈ d2l := mem_of_mget hex
  have hLd : mget l2d L = some d := (h1 _ hdL).1
  refine ⟨?_, ?_, keys_mset_nodup _ _ h3,
    keys_mset_nodup _ _ (keys_mdel_nodup _ h4)⟩
  · intro p hp
    rcases mem_mset_nodup h3 hp with h | ⟨hmem, hne⟩
    · subst h
      simp [mget_mset]
    · obtain ⟨hback, hlt⟩ := h1 p hmem
      have hne' : n ≠ p.2 := fun hh => absurd (hh ▸ hlt) (lt_irrefl _)
      have hneL : L ≠ p.2 := by
        intro hh
        rw [← hh] at hback
        rw [hLd] at hback
        exact hne (Option.some_injective _ hback).symm
      rw [mget_mset, if_neg hne', mget_mdel, if_neg hneL]
      exact ⟨hback, Nat.lt_succ_of_lt hlt⟩
  · intro q hq
    rcases mem_mset_nodup (keys_mdel_nodup _ h4) hq with h | ⟨hmem, hne⟩
    · subst h
      simp [mget_mset]
    · obtain ⟨hq', hqL⟩ := mem_mdel.mp hmem
      have hback := h2 q hq'
      have hne' : d ≠ q.2 := by
        intro hh
        rw [← hh, hex] at hback
        exact hqL (Option.some_injective _ hback).symm
      rw [mget_mset, if_neg hne']
      exact hback

/-- Dropping a mapped `doc_id` (the `deleteEmbedding` path). -/
theorem MapsInv_delete {d2l : List (String × ℕ)} {l2d : List (ℕ × String)}
    {n L : ℕ} {d : String} (hinv : MapsInv d2l l2d n)
    (hex : mget d2l d = some L) :
    MapsInv (mdel d2l d) (mdel l2d L) n := by
  obtain ⟨h1, h2, h3, h4⟩ := hinv
  have hdL : (d, L) ∈ d2l := mem_of_mget hex
  have hLd : mget l2d L = some d := (h1 _ hdL).1
  refine ⟨?_, ?_, keys_mdel_nodup _ h3, keys_mdel_nodup _ h4⟩
  · intro p hp
    obtain ⟨hmem, hne⟩ := mem_mdel.mp hp
    obtain ⟨hback, hlt⟩ := h1 p hmem
    have hneL : L ≠ p.2 := by
      intro hh
      rw [← hh, hLd] at hback
      exact hne (Option.some_injective _ hback).symm
    rw [mget_mdel, if_neg hneL]
    exact ⟨hback, hlt⟩
  · intro q hq
    obtain ⟨hmem, hne⟩ := mem_mdel.mp hq
    have hback := h2 q hmem
    have hne' : d ≠ q.2 := by
      intro hh
      rw [← hh, hex] at hback
      exact hne (Option.some_injective _ hback).symm
    rw [mget_mdel, if_neg hne']
    exact hback

theorem perm_insertAsc {α : Type} (key : α → ℕ) (x : α) (l : List α) :
    List.Perm (insertAsc key x l) (x :: l) := by
  induction l with
  | nil => simp [insertAsc]
  | cons y ys ih =>
      by_cases h : key x ≤ key y
      · simp [insertAsc, h]
      · simp only [insertAsc, if_neg h]
        exact (ih.cons y).trans (List.Perm.swap x y ys)

theorem perm_sortAsc {α : Type} (key : α → ℕ) (l : List α) :
    List.Perm (sortAsc key l) l := by
  induction l with
  | nil => simp [sortAsc]
  | cons x xs ih =>
      exact (perm_insertAsc key x (sortAsc key xs)).trans (ih.cons x)

theorem rebuildStep_inv {acc : RebuildAcc} {d : String}
    (hinv : MapsInv acc.d2l acc.l2d acc.n) (hfresh : mget acc.d2l d = none) :
    MapsInv (rebuildStep acc d).d2l (rebuildStep acc d).l2d
      (rebuildStep acc d).n := by
  unfold rebuildStep
  cases sidecarGet acc.sidecar d with
  | none => exact hinv
  | some row => exact MapsInv_insert_fresh hinv hfresh

theorem rebuildStep_fresh {acc : RebuildAcc} {d d' : String}
    (hfresh : mget acc.d2l d' = none) (hne : d ≠ d') :
    mget (rebuildStep acc d).d2l d' = none := by
  unfold rebuildStep
  cases sidecarGet acc.sidecar d with
  | none => exact hfresh
  | some row =>
      dsimp only
      rw [mget_mset, if_neg hne]
      exact hfresh

theorem rebuild_fold_inv :
    ∀ (ms : List (String × ℕ)) (acc : RebuildAcc),
      MapsInv acc.d2l acc.l2d acc.n →
      (∀ p ∈ ms, mget acc.d2l p.1 = none) →
      (ms.map Prod.fst).Nodup →
      MapsInv (ms.foldl (fun a p => rebuildStep a p.1) acc).d2l
        (ms.foldl (fun a p => rebuildStep a p.1) acc).l2d
        (ms.foldl (fun a p => rebuildStep a p.1) acc).n
  | [], _, hinv, _, _ => hinv
  | p :: rest, acc, hinv, hfresh, hnd => by
      simp only [List.foldl_cons]
      simp only [List.map_cons, List.nodup_cons] at hnd
      apply rebuild_fold_inv rest
      · exact rebuildStep_inv hinv (hfresh p (List.mem_cons_self _ _))
      · intro q hq
        have hne : p.1 ≠ q.1 := fun hh =>
          hnd.1 (hh ▸ List.mem_map.mpr ⟨q, hq, rfl⟩)
        exact rebuildStep_fresh (hfresh q (List.mem_cons_of_mem _ hq)) hne
      · exact hnd.2

/-- Past the validation steps, the bijection fields of the state returned by
`upsertEmbedding` (whether or not the HNSW insert or the sidecar commit
failed) are the ones written by the label-allocation step. -/
theorem upsert_fields (cfg : AdapterConfig) (normFn : List ℚ → List ℚ)
    (failHnsw failSidecar : Bool) (st : AdapterState) (docId : String)
    (vec : List ℚ) (h1 : ¬vec.length ≠ cfg.dimensions) (h2 : ¬sumSq vec = 0) :
    (upsertEmbedding cfg normFn failHnsw failSidecar st docId vec).1.docIdToLabel
        = mset st.docIdToLabel docId st.nextLabel ∧
    (upsertEmbedding cfg normFn failHnsw failSidecar st docId vec).1.nextLabel
        = st.nextLabel + 1 ∧
    (upsertEmbedding cfg normFn failHnsw failSidecar st docId vec).1.labelToDocId
        = (match mget st.docIdToLabel docId with
           | some L => mset (mdel st.labelToDocId L) st.nextLabel docId
           | none => mset st.labelToDocId st.nextLabel docId) := by
  unfold upsertEmbedding
  rw [if_neg h1, if_neg h2]
  cases hm : mget st.docIdToLabel docId <;>
    simp only [hm] <;>
    cases failHnsw <;>
    by_cases hd :
      ((if needsNormalize cfg (sumSq vec) then normFn vec else vec).length
        ≠ cfg.dimensions) <;>
    cases failSidecar <;>
    simp [hd]

theorem StateInv_upsert (cfg : AdapterConfig) (normFn : List ℚ → List ℚ)
    (failHnsw failSidecar : Bool) (st : AdapterState) (docId : String)
    (vec : List ℚ) (hinv : StateInv st) :
    StateInv (upsertEmbedding cfg normFn failHnsw failSidecar st docId vec).1 := by
  by_cases h1 : vec.length ≠ cfg.dimensions
  · unfold upsertEmbedding
    rw [if_pos h1]
    exact hinv
  · by_cases h2 : sumSq vec = 0
    · unfold upsertEmbedding
      rw [if_neg h1, if_pos h2]
      exact hinv
    · obtain ⟨hd, hn, hl⟩ :=
        upsert_fields cfg normFn failHnsw failSidecar st docId vec h1 h2
      unfold StateInv
      cases hm : mget st.docIdToLabel docId with
      | some L =>
          simp only [hm] at hl
          rw [hd, hn, hl]
          exact MapsInv_update_existing hinv hm
      | none =>
          simp only [hm] at hl
          rw [hd, hn, hl]
          exact MapsInv_insert_fresh hinv hm

theorem StateInv_delete (st : AdapterState) (docId : String)
    (hinv : StateInv st) : StateInv (deleteEmbedding st docId) := by
  unfold deleteEmbedding
  cases hm : mget st.docIdToLabel docId with
  | none => exact hinv
  | some L => exact MapsInv_delete hinv hm

theorem StateInv_clear (cfg : AdapterConfig) (st : AdapterState) :
    StateInv (clearAdapter cfg st) :=
  ⟨fun p hp => absurd hp (List.not_mem_nil p),
   fun q hq => absurd hq (List.not_mem_nil q),
   List.nodup_nil, List.nodup_nil⟩

theorem StateInv_rebuild (cfg : AdapterConfig) (st : AdapterState)
    (hsc : (st.sidecar.map SidecarRow.doc_id).Nodup) :
    StateInv (rebuildIndex cfg st) := by
  unfold StateInv rebuildIndex
  dsimp only
  apply rebuild_fold_inv
  · exact ⟨fun p hp => absurd hp (List.not_mem_nil p),
      fun q hq => absurd hq (List.not_mem_nil q),
      List.nodup_nil, List.nodup_nil⟩
  · intro p _; rfl
  · have hperm :
        List.Perm (sidecarAllMappings st.sidecar)
          (st.sidecar.map fun r => (r.doc_id, r.label)) :=
      perm_sortAsc _ _
    have hmap := hperm.map Prod.fst
    rw [List.map_map] at hmap
    have : (List.map (Prod.fst ∘ fun r => (r.doc_id, r.label)) st.sidecar) =
        st.sidecar.map SidecarRow.doc_id := by
      simp [Function.comp]
    rw [this] at hmap
    exact hmap.nodup_iff.mpr hsc

/-! ## Claims C9, C10, C1, C2 — the vector layer -/

/-- C9: every vector-layer operation (`upsertEmbedding` — in all its success
and failure modes —, `deleteEmbedding`, `clearAdapter`, `rebuildIndex`)
preserves the invariant that `docIdToLabel` and `labelToDocId` are mutual
inverses and every mapped label is strictly below `nextLabel`.  Rebuild
additionally relies on the sidecar primary key (no duplicated `doc_id`
rows). -/
theorem c9_bijection_invariant (cfg : AdapterConfig)
    (normFn : List ℚ → List ℚ) (failHnsw failSidecar : Bool)
    (st : AdapterState) (docId : String) (vec : List ℚ)
    (hinv : StateInv st) (hsc : (st.sidecar.map SidecarRow.doc_id).Nodup) :
    StateInv (upsertEmbedding cfg normFn failHnsw failSidecar st docId vec).1 ∧
    StateInv (deleteEmbedding st docId) ∧
    StateInv (clearAdapter cfg st) ∧
    StateInv (rebuildIndex cfg st) :=
  ⟨StateInv_upsert cfg normFn failHnsw failSidecar st docId vec hinv,
   StateInv_delete st docId hinv,
   StateInv_clear cfg st,
   StateInv_rebuild cfg st hsc⟩

/-- A small populated adapter state used to instantiate the vector-layer
theorems: one document `"a"` at label 0. -/
def sampleCfg : AdapterConfig := ⟨2, Space.l2, 100⟩

def sampleState : AdapterState :=
  { docIdToLabel := [("a", 0)], labelToDocId := [(0, "a")], nextLabel := 1,
    hnswPoints := [(0, [1, 0])], hnswDeleted := [], hnswMax := 100,
    sidecar := [⟨"a", 0, [1, 0]⟩], isDirty := false }

/-- Witness for C9 at a concrete populated state. -/
theorem c9_bijection_invariant_witness :
    StateInv sampleState ∧
    (sampleState.sidecar.map SidecarRow.doc_id).Nodup ∧
    (StateInv (upsertEmbedding sampleCfg id false false sampleState "b" [0, 1]).1 ∧
     StateInv (deleteEmbedding sampleState "b") ∧
     StateInv (clearAdapter sampleCfg sampleState) ∧
     StateInv (rebuildIndex sampleCfg sampleState)) :=
  ⟨by decide, by decide,
   c9_bijection_invariant sampleCfg id false false sampleState "b" [0, 1]
     (by decide) (by decide)⟩

/-- C10: for every configured space (`ip`, `cosine` and also `l2`),
`upsertEmbedding` on a zero-norm vector of the configured dimension throws
`Cannot index zero vector` before any mutation: the returned state is the
input state — HNSW points, sidecar rows, both bijections and `nextLabel`
are untouched. -/
theorem c10_zero_vector_rejected (cfg : AdapterConfig)
    (normFn : List ℚ → List ℚ) (failHnsw failSidecar : Bool)
    (st : AdapterState) (docId : String) (vec : List ℚ)
    (hdim : vec.length = cfg.dimensions) (hzero : sumSq vec = 0) :
    upsertEmbedding cfg normFn failHnsw failSidecar st docId vec
      = (st, some VError.zeroVector) := by
  unfold upsertEmbedding
  rw [if_neg (not_not_intro hdim), if_pos hzero]

/-- Witness for C10 in the `l2` space on the zero vector of dimension 2. -/
theorem c10_zero_vector_rejected_witness :
    (([0, 0] : List ℚ).length = sampleCfg.dimensions) ∧
    sumSq [0, 0] = 0 ∧
    upsertEmbedding sampleCfg id false false sampleState "a" [0, 0]
      = (sampleState, some VError.zeroVector) :=
  ⟨by decide, by simp [sumSq],
   c10_zero_vector_rejected sampleCfg id false false sampleState "a" [0, 0]
     (by decide) (by simp [sumSq])⟩

def c1cfg : AdapterConfig := ⟨1, Space.l2, 100⟩

/-- The state after `upsertEmbedding("a", [1])` on a fresh index with
dimension 1 (proved equal to that call's result in `c1_counterexample`). -/
def c1state1 : AdapterState :=
  { docIdToLabel := [("a", 0)], labelToDocId := [(0, "a")], nextLabel := 1,
    hnswPoints := [(0, [1])], hnswDeleted := [], hnswMax := 100,
    sidecar := [⟨"a", 0, [1]⟩], isDirty := true }

/-- The state after a second, identical `upsertEmbedding("a", [1])`. -/
def c1state2 : AdapterState :=
  { docIdToLabel := [("a", 1)], labelToDocId := [(1, "a")], nextLabel := 2,
    hnswPoints := [(0, [1]), (1, [1])], hnswDeleted := [0], hnswMax := 100,
    sidecar := [⟨"a", 1, [1]⟩], isDirty := true }

/-- C1 counterexample: the second of two identical
`upsertEmbedding("a", [1], m)` calls does not skip — there is no
content-hash dedup in `upsertEmbedding` (nor a `content_hash` column in the
sidecar schema).  The second call succeeds and bumps `nextLabel` from 1 to
2, rebinds `"a"` from label 0 to label 1, and rewrites the sidecar row,
refuting the claim that the second call leaves `next_label`, the bijections
and the sidecar contents unchanged. -/
theorem c1_counterexample :
    upsertEmbedding c1cfg id false false (initialState c1cfg) "a" [1]
      = (c1state1, none) ∧
    upsertEmbedding c1cfg id false false c1state1 "a" [1]
      = (c1state2, none) ∧
    c1state1.nextLabel = 1 ∧ c1state2.nextLabel = 2 ∧
    mget c1state1.docIdToLabel "a" = some 0 ∧
    mget c1state2.docIdToLabel "a" = some 1 ∧
    sidecarGet c1state1.sidecar "a" = some ⟨"a", 0, [1]⟩ ∧
    sidecarGet c1state2.sidecar "a" = some ⟨"a", 1, [1]⟩ := by
  refine ⟨?_, ?_, rfl, rfl, by decide, by decide, by decide, by decide⟩
  · simp [upsertEmbedding, initialState, c1cfg, c1state1, needsNormalize,
      sumSq, mget, mset, mdel, sidecarSave]
  · simp [upsertEmbedding, c1cfg, c1state1, c1state2, needsNormalize,
      sumSq, mget, mset, mdel, sidecarSave]

/-- C1 amended: a repeated `upsertEmbedding` for an already-mapped `doc_id`
(identical arguments or not) never skips: it always allocates the fresh
label `nextLabel`, increments `nextLabel`, rebinds the `doc_id` to the new
label and drops the old label from `labelToDocId` (the old label becomes a
tombstone).  Content-hash deduplication exists only in the `VectorManager`
layer above (`shouldCreateEmbedding`), not in the vector layer's upsert. -/
theorem c1_amended_second_upsert_allocates (cfg : AdapterConfig)
    (normFn : List ℚ → List ℚ) (failHnsw failSidecar : Bool)
    (st : AdapterState) (docId : String) (vec : List ℚ) (L : ℕ)
    (hinv : StateInv st) (hdim : vec.length = cfg.dimensions)
    (hnz : sumSq vec ≠ 0) (hm : mget st.docIdToLabel docId = some L) :
    (upsertEmbedding cfg normFn failHnsw failSidecar st docId vec).1.nextLabel
        = st.nextLabel + 1 ∧
    mget (upsertEmbedding cfg normFn failHnsw failSidecar st docId
        vec).1.docIdToLabel docId = some st.nextLabel ∧
    mget (upsertEmbedding cfg normFn failHnsw failSidecar st docId
        vec).1.labelToDocId st.nextLabel = some docId ∧
    mget (upsertEmbedding cfg normFn failHnsw failSidecar st docId
        vec).1.labelToDocId L = none := by
  obtain ⟨hd, hn, hl⟩ :=
    upsert_fields cfg normFn failHnsw failSidecar st docId vec
      (not_not_intro hdim) hnz
  simp only [hm] at hl
  have hLlt : L < st.nextLabel := (hinv.1 _ (mem_of_mget hm)).2
  have hLne : st.nextLabel ≠ L := fun hh => absurd (hh ▸ hLlt) (lt_irrefl _)
  refine ⟨hn, ?_, ?_, ?_⟩
  · rw [hd, mget_mset, if_pos rfl]
  · rw [hl, mget_mset, if_pos rfl]
  · rw [hl, mget_mset, if_neg hLne, mget_mdel, if_pos rfl]

/-- Witness for the amended C1 at the concrete one-document state. -/
theorem c1_amended_second_upsert_allocates_witness :
    StateInv c1state1 ∧ (([1] : List ℚ).length = c1cfg.dimensions) ∧
    sumSq [1] ≠ 0 ∧ mget c1state1.docIdToLabel "a" = some 0 ∧
    ((upsertEmbedding c1cfg id false false c1state1 "a" [1]).1.nextLabel
        = c1state1.nextLabel + 1 ∧
     mget (upsertEmbedding c1cfg id false false c1state1 "a"
        [1]).1.docIdToLabel "a" = some c1state1.nextLabel ∧
     mget (upsertEmbedding c1cfg id false false c1state1 "a"
        [1]).1.labelToDocId c1state1.nextLabel = some "a" ∧
     mget (upsertEmbedding c1cfg id false false c1state1 "a"
        [1]).1.labelToDocId 0 = none) :=
  ⟨by decide, by decide, by simp [sumSq], by decide,
   c1_amended_second_upsert_allocates c1cfg id false false c1state1 "a" [1] 0
     (by decide) (by decide) (by simp [sumSq]) (by decide)⟩

/-- C2 counterexample: in `upsertEmbedding` the in-memory bijection is
updated *before* the HNSW insert and the sidecar commit.  Concretely, on a
fresh index, if `sidecar.saveVector` fails, the already-mutated state maps
label 0 to `"a"` although the sidecar holds no row for `"a"` — a reader
resolving label 0 observes a `doc_id` that is not durable, refuting the
claimed ordering. -/
theorem c2_counterexample :
    (upsertEmbedding c1cfg id false true (initialState c1cfg) "a" [1]).2
        = some VError.sidecarFailed ∧
    mget (upsertEmbedding c1cfg id false true (initialState c1cfg) "a"
        [1]).1.labelToDocId 0 = some "a" ∧
    mget (upsertEmbedding c1cfg id false true (initialState c1cfg) "a"
        [1]).1.docIdToLabel "a" = some 0 ∧
    sidecarGet (upsertEmbedding c1cfg id false true (initialState c1cfg) "a"
        [1]).1.sidecar "a" = none := by
  have heval :
      upsertEmbedding c1cfg id false true (initialState c1cfg) "a" [1]
        = ({ docIdToLabel := [("a", 0)], labelToDocId := [(0, "a")],
             nextLabel := 1, hnswPoints := [(0, [1])], hnswDeleted := [],
             hnswMax := 100, sidecar := [], isDirty := false },
           some VError.sidecarFailed) := by
    simp [upsertEmbedding, initialState, c1cfg, needsNormalize, sumSq, mget,
      mset, mdel, sidecarSave]
  rw [heval]
  exact ⟨rfl, by decide, by decide, rfl⟩

/-- C2 amended: `upsertEmbedding` updates the bijections first; the HNSW
insert and the sidecar commit run afterwards, so when either of them fails
the maps already carry the fresh label while the sidecar is unchanged (the
label resolved through the bijection is not durable). -/
theorem c2_amended_maps_updated_before_io (cfg : AdapterConfig)
    (normFn : List ℚ → List ℚ) (st : AdapterState) (docId : String)
    (vec : List ℚ) (hdim : vec.length = cfg.dimensions)
    (hnf : (normFn vec).length = cfg.dimensions) (hnz : sumSq vec ≠ 0) :
    (mget (upsertEmbedding cfg normFn true false st docId
        vec).1.docIdToLabel docId = some st.nextLabel ∧
     (upsertEmbedding cfg normFn true false st docId vec).1.sidecar
        = st.sidecar ∧
     (upsertEmbedding cfg normFn true false st docId vec).2
        = some VError.hnswAddFailed) ∧
    (mget (upsertEmbedding cfg normFn false true st docId
        vec).1.labelToDocId st.nextLabel = some docId ∧
     (upsertEmbedding cfg normFn false true st docId vec).1.sidecar
        = st.sidecar ∧
     (upsertEmbedding cfg normFn false true st docId vec).2
        = some VError.sidecarFailed) := by
  have hvlen :
      ¬((if needsNormalize cfg (sumSq vec) then normFn vec else vec).length
        ≠ cfg.dimensions) := by
    by_cases hnn : needsNormalize cfg (sumSq vec)
    · rw [if_pos hnn]; exact not_not_intro hnf
    · rw [if_neg hnn]; exact not_not_intro hdim
  constructor
  · unfold upsertEmbedding
    rw [if_neg (not_not_intro hdim), if_neg hnz]
    cases hm : mget st.docIdToLabel docId <;>
      simp [hm, mget_mset]
  · unfold upsertEmbedding
    rw [if_neg (not_not_intro hdim), if_neg hnz]
    cases hm : mget st.docIdToLabel docId <;>
      simp [hm, hvlen, mget_mset]

/-- Witness for the amended C2 on a fresh index. -/
theorem c2_amended_maps_updated_before_io_witness :
    (([1] : List ℚ).length = c1cfg.dimensions) ∧
    ((id ([1] : List ℚ)).length = c1cfg.dimensions) ∧
    sumSq [1] ≠ 0 ∧
    ((mget (upsertEmbedding c1cfg id true false (initialState c1cfg) "a"
        [1]).1.docIdToLabel "a" = some (initialState c1cfg).nextLabel ∧
      (upsertEmbedding c1cfg id true false (initialState c1cfg) "a"
        [1]).1.sidecar = (initialState c1cfg).sidecar ∧
      (upsertEmbedding c1cfg id true false (initialState c1cfg) "a" [1]).2
        = some VError.hnswAddFailed) ∧
     (mget (upsertEmbedding c1cfg id false true (initialState c1cfg) "a"
        [1]).1.labelToDocId (initialState c1cfg).nextLabel = some "a" ∧
      (upsertEmbedding c1cfg id false true (initialState c1cfg) "a"
        [1]).1.sidecar = (initialState c1cfg).sidecar ∧
      (upsertEmbedding c1cfg id false true (initialState c1cfg) "a" [1]).2
        = some VError.sidecarFailed)) :=
  ⟨by decide, by decide, by simp [sumSq],
   c2_amended_maps_updated_before_io c1cfg id (initialState c1cfg) "a" [1]
     (by decide) (by decide) (by simp [sumSq])⟩

/-! ## Claim C3 — WindowsSafeVectorManagerFixed (`src/unnamed/part_006`)

`saveIndexWithWorkaround` tries three write strategies in order.  Each
attempt either throws, or leaves a file whose `stat` size is some `n`; the
attempt counts as a success only when `n > 0` (the `stats.size > 0` check).
One attempt is embedded as `Option ℕ`: `none` — the strategy threw,
`some n` — a file of size `n` was produced.  On success the final path's
basename is the generation name for every strategy, and `updateCurrent`
writes it to the `CURRENT` file; if no strategy verifies, the function
throws before `updateCurrent` is reached. -/

/-- The on-disk pointer state of the generation directory: the trimmed
content of the `CURRENT` file, when it exists. -/
structure GenState where
  current : Option String
  deriving DecidableEq, Repr

inductive GenError
  | allStrategiesFailed
  deriving DecidableEq, Repr

/-- The strategy loop: the first outcome that produced a verified non-empty
file wins. -/
def attemptStrategies : List (Option ℕ) → Bool
  | [] => false
  | none :: rest => attemptStrategies rest
  | some n :: rest => if 0 < n then true else attemptStrategies rest

/-- `saveIndexWithWorkaround(writeIndexFn)` over the pointer state. -/
def saveIndexWithWorkaround (st : GenState) (genName : String)
    (outcomes : List (Option ℕ)) : GenState × Except GenError String :=
  if attemptStrategies outcomes then
    -- a strategy produced a verified non-empty file; `updateCurrent` runs
    ({ current := some genName }, Except.ok genName)
  else
    -- `throw new Error(...)` before `updateCurrent`
    (st, Except.error GenError.allStrategiesFailed)

/-- `resolveCurrentIndexPath()`: read `CURRENT`, trim, resolve against the
base directory. -/
def resolveCurrentIndexPath (baseDir : String) (st : GenState) :
    Option String :=
  st.current.map fun f => baseDir ++ "/" ++ f

theorem attemptStrategies_eq_true {outcomes : List (Option ℕ)} :
    attemptStrategies outcomes = true ↔
      ∃ o ∈ outcomes, ∃ n, o = some n ∧ 0 < n := by
  induction outcomes with
  | nil => simp [attemptStrategies]
  | cons o rest ih =>
      cases o with
      | none =>
          simp only [attemptStrategies, ih, List.mem_cons]
          constructor
          · rintro ⟨o, ho, n, rfl, hn⟩
            exact ⟨some n, Or.inr ho, n, rfl, hn⟩
          · rintro ⟨o, ho | ho, n, rfl, hn⟩
            · cases ho
            · exact ⟨some n, ho, n, rfl, hn⟩
      | some m =>
          by_cases hm : 0 < m
          · simp only [attemptStrategies, if_pos hm, List.mem_cons]
            exact ⟨fun _ => ⟨some m, Or.inl rfl, m, rfl, hm⟩, fun _ => trivial⟩
          · simp only [attemptStrategies, if_neg hm, ih, List.mem_cons]
            constructor
            · rintro ⟨o, ho, n, rfl, hn⟩
              exact ⟨some n, Or.inr ho, n, rfl, hn⟩
            · rintro ⟨o, ho | ho, n, heq, hn⟩
              · rw [ho] at heq
                cases heq
                exact absurd hn hm
              · exact ⟨o, ho, n, heq, hn⟩

/-- C3: if all three strategies fail (throw, or leave only empty files),
`saveIndexWithWorkaround` raises the fatal error and the `CURRENT` pointer
is not written, so `resolveCurrentIndexPath` still resolves the previous
generation; and in general `CURRENT` is advanced only when some strategy
produced a verified non-empty file. -/
theorem c3_failed_publish_preserves_current (baseDir genName : String)
    (st : GenState) (outcomes : List (Option ℕ))
    (hfail : ∀ o ∈ outcomes, ∀ n, o = some n → ¬0 < n) :
    saveIndexWithWorkaround st genName outcomes
        = (st, Except.error GenError.allStrategiesFailed) ∧
    resolveCurrentIndexPath baseDir
        (saveIndexWithWorkaround st genName outcomes).1
      = resolveCurrentIndexPath baseDir st ∧
    (∀ outcomes' : List (Option ℕ),
      ((saveIndexWithWorkaround st genName outcomes').2).isOk = true →
        ∃ o ∈ outcomes', ∃ n, o = some n ∧ 0 < n) := by
  have hno : attemptStrategies outcomes = false := by
    cases h : attemptStrategies outcomes
    · rfl
    · exfalso
      obtain ⟨o, ho, n, rfl, hn⟩ := attemptStrategies_eq_true.mp h
      exact hfail _ ho n rfl hn
  refine ⟨?_, ?_, ?_⟩
  · unfold saveIndexWithWorkaround
    rw [hno]
    simp
  · unfold saveIndexWithWorkaround
    rw [hno]
    simp
  · intro outcomes' hok
    apply attemptStrategies_eq_true.mp
    cases h : attemptStrategies outcomes'
    · unfold saveIndexWithWorkaround at hok
      rw [h] at hok
      simp [Except.isOk, Except.toBool] at hok
    · rfl

/-- Witness for C3: `CURRENT` pointing at a previous generation, all three
strategies failing (two throws, one empty file). -/
theorem c3_failed_publish_preserves_current_witness :
    (∀ o ∈ ([none, none, some 0] : List (Option ℕ)), ∀ n, o = some n → ¬0 < n) ∧
    (saveIndexWithWorkaround ⟨some "index-1.hnsw"⟩ "index-2.hnsw"
        [none, none, some 0]
      = (⟨some "index-1.hnsw"⟩, Except.error GenError.allStrategiesFailed) ∧
     resolveCurrentIndexPath "base"
        (saveIndexWithWorkaround ⟨some "index-1.hnsw"⟩ "index-2.hnsw"
          [none, none, some 0]).1
       = resolveCurrentIndexPath "base" ⟨some "index-1.hnsw"⟩ ∧
     (∀ outcomes' : List (Option ℕ),
       ((saveIndexWithWorkaround ⟨some "index-1.hnsw"⟩ "index-2.hnsw"
           outcomes').2).isOk = true →
         ∃ o ∈ outcomes', ∃ n, o = some n ∧ 0 < n)) :=
  ⟨by decide,
   c3_failed_publish_preserves_current "base" "index-2.hnsw"
     ⟨some "index-1.hnsw"⟩ [none, none, some 0] (by decide)⟩

/-! ## Claim C6 — `searchSimilar` (guide lines 1068–1189)

The k-NN call is an external engine; it is embedded as an oracle
`knn : ℕ → List (ℕ × ℚ)` mapping the requested neighbour count to
`(label, distance)` pairs.  Query normalization only rewrites the vector
handed to the oracle and is therefore absorbed by it.  The model keeps the
result loop exactly: skip unmapped labels (tombstones), apply
`options.filter`, convert distance to score, apply `options.radius`, and
break once `k` hits were pushed. -/

structure SearchHit where
  docId : String
  score : ℚ
  distance : ℚ
  deriving DecidableEq, Repr

/-- The distance → score conversion of the result loop. -/
def distToScore (space : Space) (d : ℚ) : ℚ :=
  match space with
  | Space.ip => (2 - d) / 2
  | Space.cosine => 1 - d / 2
  | Space.l2 => 1 / (1 + d)

/-- `options.filter && !options.filter(docId)`. -/
def passesFilter (filter : Option (String → Bool)) (docId : String) : Bool :=
  match filter with
  | some f => f docId
  | none => true

/-- `options.radius && score < options.radius`. -/
def belowRadius (radius : Option ℚ) (score : ℚ) : Bool :=
  match radius with
  | some r => decide (score < r)
  | none => false

/-- One iteration of the result loop: `none` means the neighbour is skipped
(tombstoned label, filtered out, or below the score floor). -/
def surviveHit (l2d : List (ℕ × String)) (filter : Option (String → Bool))
    (radius : Option ℚ) (space : Space) (p : ℕ × ℚ) : Option SearchHit :=
  match mget l2d p.1 with
  | none => none
  | some docId =>
      if passesFilter filter docId = false then none
      else
        let score := distToScore space p.2
        if belowRadius radius score then none
        else some ⟨docId, score, p.2⟩

/-- The result loop with its `if (results.length >= k) break` (checked after
each push; `count` is the number of hits already collected). -/
def processNeighbors (survive : ℕ × ℚ → Option SearchHit) (k : ℕ) :
    ℕ → List (ℕ × ℚ) → List SearchHit
  | _, [] => []
  | count, p :: rest =>
      match survive p with
      | none => processNeighbors survive k count rest
      | some h =>
          if k ≤ count + 1 then [h]
          else h :: processNeighbors survive k (count + 1) rest

/-- `searchSimilar(queryVector, k, options)`. -/
def searchSimilar (cfg : AdapterConfig) (st : AdapterState)
    (knn : ℕ → List (ℕ × ℚ)) (filter : Option (String → Bool))
    (radius : Option ℚ) (query : List ℚ) (k : ℕ) :
    Except VError (List SearchHit) :=
  if st.docIdToLabel = [] then Except.ok []
  else if query.length ≠ cfg.dimensions then Except.error VError.dimensionMismatch
  else
    let currentCount := st.hnswPoints.length
    let effectiveK := min (k * 2) currentCount
    if effectiveK = 0 then Except.ok []
    else
      Except.ok
        (processNeighbors (surviveHit st.labelToDocId filter radius cfg.space)
          k 0 (knn effectiveK))

theorem processNeighbors_eq_take (survive : ℕ × ℚ → Option SearchHit)
    (k : ℕ) :
    ∀ (ns : List (ℕ × ℚ)) (count : ℕ), count < k →
      processNeighbors survive k count ns
        = (ns.filterMap survive).take (k - count)
  | [], _, _ => by simp [processNeighbors]
  | p :: rest, count, hlt => by
      cases hs : survive p with
      | none =>
          simp only [processNeighbors, hs, List.filterMap_cons_none hs]
          exact processNeighbors_eq_take survive k rest count hlt
      | some h =>
          simp only [processNeighbors, hs, List.filterMap_cons_some hs]
          by_cases hk : k ≤ count + 1
          · have : k - count = 1 := by omega
            rw [if_pos hk, this]
            simp
          · have hlt' : count + 1 < k := by omega
            have : k - count = (k - (count + 1)) + 1 := by omega
            rw [if_neg hk, this, List.take_succ_cons,
              processNeighbors_eq_take survive k rest (count + 1) hlt']

/-- C6: when the map is non-empty and `min(2k, current_count) > 0`,
`searchSimilar` asks the engine for exactly `min(2k, current_count)`
neighbours and returns the first `k` hits that survive tombstone
filtering, the caller's filter and the score floor (fewer when fewer
survive). -/
theorem c6_search_first_k_survivors (cfg : AdapterConfig)
    (st : AdapterState) (knn : ℕ → List (ℕ × ℚ))
    (filter : Option (String → Bool)) (radius : Option ℚ)
    (query : List ℚ) (k : ℕ) (hq : query.length = cfg.dimensions)
    (hne : st.docIdToLabel ≠ [])
    (hk : 0 < min (k * 2) st.hnswPoints.length) :
    searchSimilar cfg st knn filter radius query k
      = Except.ok
          (((knn (min (k * 2) st.hnswPoints.length)).filterMap
              (surviveHit st.labelToDocId filter radius cfg.space)).take k) := by
  unfold searchSimilar
  rw [if_neg hne, if_neg (not_not_intro hq)]
  have hkpos : 0 < k := by
    rcases Nat.lt_min.mp hk with ⟨h2k, _⟩
    omega
  have hne0 : ¬(min (k * 2) st.hnswPoints.length = 0) := Nat.pos_iff_ne_zero.mp hk
  rw [if_neg hne0]
  rw [processNeighbors_eq_take _ _ _ 0 hkpos]
  rfl

/-- Witness for C6: one live document, `k = 1`, an oracle returning the
single stored label. -/
theorem c6_search_first_k_survivors_witness :
    (([1, 0] : List ℚ).length = sampleCfg.dimensions) ∧
    sampleState.docIdToLabel ≠ [] ∧
    0 < min (1 * 2) sampleState.hnswPoints.length ∧
    searchSimilar sampleCfg sampleState (fun _ => [(0, 1)]) none none [1, 0] 1
      = Except.ok
          ((([(0, 1)] : List (ℕ × ℚ)).filterMap
              (surviveHit sampleState.labelToDocId none none
                sampleCfg.space)).take 1) :=
  ⟨by decide, by decide, by decide,
   c6_search_first_k_survivors sampleCfg sampleState (fun _ => [(0, 1)])
     none none [1, 0] 1 (by decide) (by decide) (by decide)⟩

/-! ## Claim C7 — FTS5IndexAdapter
(`src/json-rag/adapters/index/sqlite-index-adapter.js` lines 427–1119)

The `documents_fts` table is an FTS5 virtual table: its columns carry no
PRIMARY KEY or UNIQUE constraint, so `INSERT OR REPLACE` can never hit a
conflict and always inserts a new row — which is why `addToFTS` explicitly
runs `DELETE ... WHERE id = ?` first (`關鍵：先刪除舊記錄，避免重複`) and why
`searchFTS` deduplicates its hits by `(collection, id)`.  The plain
`addDocument` path performs no such delete. -/

structure FtsRow where
  id : String
  collection : String
  content : String
  deriving DecidableEq, Repr

/-- `DELETE FROM documents_fts WHERE id = ?` (note: by `id` only — the
collection is not part of the predicate). -/
def ftsDeleteById : List FtsRow → String → List FtsRow
  | [], _ => []
  | r :: rest, i =>
      if r.id = i then ftsDeleteById rest i else r :: ftsDeleteById rest i

/-- The composite-key decomposition of `addToFTS`: `"coll:id"` splits at the
first colon; without a colon the collection defaults to `"default"`. -/
def decomposeDocId (docId : String) : String × String :=
  if docId.contains ':' then
    let parts := docId.splitOn ":"
    (parts.headD "", String.intercalate ":" parts.tail)
  else ("default", docId)

/-- `addToFTS(docId, content)`: decompose, delete the old record, insert the
new one.  (`preprocessChinese` only rewrites the stored text and is kept as
the identity here; it does not affect row identity.) -/
def addToFTS (rows : List FtsRow) (docId content : String) : List FtsRow :=
  let dec := decomposeDocId docId
  ftsDeleteById rows dec.2 ++ [⟨dec.2, dec.1, content⟩]

/-- `addDocument(docId, collection, content, metadata)` (4-argument form):
`INSERT OR REPLACE` into the constraint-free FTS5 table, i.e. a plain
insert, with no prior delete. -/
def addDocumentFTS (rows : List FtsRow) (docId collection content : String) :
    List FtsRow :=
  rows ++ [⟨docId, collection, content⟩]

/-- Number of index rows with the given logical identity. -/
def ftsCountRows : List FtsRow → String → String → ℕ
  | [], _, _ => 0
  | r :: rest, coll, i =>
      (if r.collection = coll ∧ r.id = i then 1 else 0) +
        ftsCountRows rest coll i

/-- C7 counterexample: two identical `addDocument("x", "c", "hello", {})`
calls leave two rows with the logical identity `("c", "x")` — the FTS5
table has no unique constraint, so the second insert does not replace the
first, refuting the claim that after any sequence of adds the index holds
at most one row per `(collection, doc_id)`. -/
theorem c7_counterexample :
    ftsCountRows
        (addDocumentFTS (addDocumentFTS [] "x" "c" "hello") "x" "c" "hello")
        "c" "x" = 2 ∧
    ¬ftsCountRows
        (addDocumentFTS (addDocumentFTS [] "x" "c" "hello") "x" "c" "hello")
        "c" "x" ≤ 1 := by
  decide

/-- C7 amended: only the `addToFTS` path deduplicates, and it does so by
deleting every prior row with the same *`doc_id`* (across all collections)
before inserting; hence any sequence of `addToFTS` calls keeps at most one
row per `doc_id` — in particular at most one per `(collection, doc_id)` —
while `addDocument` inserts without deleting and can duplicate
(`searchFTS` additionally deduplicates its hits by `(collection, id)`). -/
theorem c7_amended_addToFTS_unique_id (rows : List FtsRow)
    (docId content : String)
    (hrows : rows.Pairwise fun a b => a.id ≠ b.id) :
    (addToFTS rows docId content).Pairwise (fun a b => a.id ≠ b.id) := by
  unfold addToFTS
  rw [List.pairwise_append]
  refine ⟨?_, List.pairwise_singleton _ _, ?_⟩
  · -- deletion keeps the pairwise disequality
    clear * - hrows
    induction rows with
    | nil => simp [ftsDeleteById]
    | cons r rest ih =>
        rcases List.pairwise_cons.mp hrows with ⟨hr, hrest⟩
        by_cases h : r.id = (decomposeDocId docId).2
        · simp only [ftsDeleteById, if_pos h]
          exact ih hrest
        · simp only [ftsDeleteById, if_neg h, List.pairwise_cons]
          refine ⟨?_, ih hrest⟩
          intro b hb
          -- members of the filtered list are members of the original
          have hmem : b ∈ rest := by
            clear * - hb
            induction rest with
            | nil => simp [ftsDeleteById] at hb
            | cons q qs ihq =>
                by_cases hq : q.id = (decomposeDocId docId).2
                · simp only [ftsDeleteById, if_pos hq] at hb
                  exact List.mem_cons_of_mem _ (ihq hb)
                · simp only [ftsDeleteById, if_neg hq, List.mem_cons] at hb
                  rcases hb with hb | hb
                  · exact hb ▸ List.mem_cons_self _ _
                  · exact List.mem_cons_of_mem _ (ihq hb)
          exact hr b hmem
  · -- every surviving row's id differs from the inserted id
    intro a ha b hb
    rw [List.mem_singleton] at hb
    subst hb
    clear * - ha
    induction rows with
    | nil => simp [ftsDeleteById] at ha
    | cons r rest ih =>
        by_cases h : r.id = (decomposeDocId docId).2
        · simp only [ftsDeleteById, if_pos h] at ha
          exact ih ha
        · simp only [ftsDeleteById, if_neg h, List.mem_cons] at ha
          rcases ha with ha | ha
          · rw [ha]; exact h
          · exact ih ha

/-- Witness for the amended C7: inserting `"c:x"` into a one-row table. -/
theorem c7_amended_addToFTS_unique_id_witness :
    (([⟨"y", "c", "z"⟩] : List FtsRow).Pairwise fun a b => a.id ≠ b.id) ∧
    (addToFTS [⟨"y", "c", "z"⟩] "c:x" "hello").Pairwise
      (fun a b => a.id ≠ b.id) :=
  ⟨by decide,
   c7_amended_addToFTS_unique_id [⟨"y", "c", "z"⟩] "c:x" "hello" (by decide)⟩

/-! ## Claim C8 — SQLiteIndexAdapter.addDocument
(`src/json-rag/adapters/index/sqlite-index-adapter.js` lines 178–213)

`addDocument` first runs `removeDocument` (a single `DELETE` statement in
its own implicit transaction), then inserts the new rows inside
`db.transaction(...)`.  The `document_index` table has `id` (the string
`documentId + ":" + fieldName`) as PRIMARY KEY and
`UNIQUE(document_id, field_name)`, so its `INSERT OR REPLACE` removes rows
conflicting on either constraint before inserting.  Observable states:
initial, after the delete, after the insert transaction. -/

structure IdxRow where
  rid : String
  document_id : String
  field_name : String
  field_value : String
  deriving DecidableEq, Repr

/-- `INSERT OR REPLACE` conflict removal for `document_index`. -/
def idxRemoveConflicts : List IdxRow → IdxRow → List IdxRow
  | [], _ => []
  | q :: rest, r =>
      if q.rid = r.rid ∨ (q.document_id = r.document_id ∧
          q.field_name = r.field_name)
      then idxRemoveConflicts rest r
      else q :: idxRemoveConflicts rest r

def idxInsertOrReplace (rows : List IdxRow) (r : IdxRow) : List IdxRow :=
  idxRemoveConflicts rows r ++ [r]

/-- `DELETE FROM document_index WHERE document_id = ?` (`removeDocument`). -/
def idxDeleteDoc : List IdxRow → String → List IdxRow
  | [], _ => []
  | r :: rest, d =>
      if r.document_id = d then idxDeleteDoc rest d
      else r :: idxDeleteDoc rest d

/-- The row built for one extracted field:
`indexId = documentId + ":" + field.name`. -/
def mkIdxRow (docId : String) (f : String × String) : IdxRow :=
  ⟨docId ++ ":" ++ f.1, docId, f.1, f.2⟩

/-- The batch-insert transaction body. -/
def idxInsertFields (rows : List IdxRow) (docId : String)
    (fields : List (String × String)) : List IdxRow :=
  fields.foldl (fun acc f => idxInsertOrReplace acc (mkIdxRow docId f)) rows

/-- The observable states of one `addDocument` call: before, after the
out-of-transaction delete, after the insert transaction. -/
def addDocumentSteps (rows : List IdxRow) (docId : String)
    (fields : List (String × String)) : List (List IdxRow) :=
  [rows, idxDeleteDoc rows docId,
   idxInsertFields (idxDeleteDoc rows docId) docId fields]

/-- The index rows of one document. -/
def rowsFor : List IdxRow → String → List IdxRow
  | [], _ => []
  | r :: rest, d =>
      if r.document_id = d then r :: rowsFor rest d else rowsFor rest d

/-- C8 counterexample: updating document `"d"` (old row `a = 1`, new field
`a = 2`) passes through the observable state after `removeDocument`, in
which `"d"` has *no* rows — neither the old row set nor the new one — so
the replacement is not atomic: a crash or failure between the delete and
the insert transaction leaves the document unindexed. -/
theorem c8_counterexample :
    idxDeleteDoc [⟨"d:a", "d", "a", "1"⟩] "d"
      ∈ addDocumentSteps [⟨"d:a", "d", "a", "1"⟩] "d" [("a", "2")] ∧
    rowsFor (idxDeleteDoc [⟨"d:a", "d", "a", "1"⟩] "d") "d" = [] ∧
    rowsFor [⟨"d:a", "d", "a", "1"⟩] "d" ≠ [] ∧
    ([mkIdxRow "d" ("a", "2")] : List IdxRow) ≠ [] ∧
    rowsFor (idxInsertFields (idxDeleteDoc [⟨"d:a", "d", "a", "1"⟩] "d") "d"
        [("a", "2")]) "d" = [mkIdxRow "d" ("a", "2")] := by
  decide

theorem string_append_cancel_left {s a b : String} (h : s ++ a = s ++ b) :
    a = b := by
  have hd : s.data ++ a.data = s.data ++ b.data := by
    have hdata := congrArg String.data h
    simpa [String.data_append] using hdata
  exact String.ext (List.append_cancel_left hd)

/-- No row built from a distinct field name conflicts with the inserted
row. -/
theorem idxRemoveConflicts_map_mkIdxRow (docId : String)
    (done : List (String × String)) (f : String × String)
    (hne : ∀ g ∈ done, g.1 ≠ f.1) :
    idxRemoveConflicts (done.map (mkIdxRow docId)) (mkIdxRow docId f)
      = done.map (mkIdxRow docId) := by
  induction done with
  | nil => rfl
  | cons g rest ih =>
      have hg : g.1 ≠ f.1 := hne g (List.mem_cons_self _ _)
      have hnoc :
          ¬((mkIdxRow docId g).rid = (mkIdxRow docId f).rid ∨
            ((mkIdxRow docId g).document_id = (mkIdxRow docId f).document_id ∧
             (mkIdxRow docId g).field_name = (mkIdxRow docId f).field_name)) := by
        rintro (h | ⟨_, h⟩)
        · exact hg (string_append_cancel_left h)
        · exact hg h
      simp only [List.map_cons, idxRemoveConflicts, if_neg hnoc]
      rw [ih fun q hq => hne q (List.mem_cons_of_mem _ hq)]

/-- `rowsFor` commutes with conflict removal. -/
theorem rowsFor_idxRemoveConflicts (rows : List IdxRow) (r : IdxRow)
    (d : String) :
    rowsFor (idxRemoveConflicts rows r) d
      = idxRemoveConflicts (rowsFor rows d) r := by
  induction rows with
  | nil => rfl
  | cons q rest ih =>
      by_cases hc : q.rid = r.rid ∨ (q.document_id = r.document_id ∧
          q.field_name = r.field_name)
      · by_cases hd : q.document_id = d
        · simp only [idxRemoveConflicts, if_pos hc, rowsFor, if_pos hd, ih]
        · simp only [idxRemoveConflicts, if_pos hc, rowsFor, if_neg hd, ih]
      · by_cases hd : q.document_id = d
        · simp only [idxRemoveConflicts, if_neg hc, rowsFor, if_pos hd, ih]
        · simp only [idxRemoveConflicts, if_neg hc, rowsFor, if_neg hd, ih]

theorem rowsFor_append (xs ys : List IdxRow) (d : String) :
    rowsFor (xs ++ ys) d = rowsFor xs d ++ rowsFor ys d := by
  induction xs with
  | nil => rfl
  | cons x rest ih =>
      by_cases hd : x.document_id = d
      · simp only [List.cons_append, rowsFor, if_pos hd, List.cons_append]
        exact congrArg (x :: ·) ih
      · simp only [List.cons_append, rowsFor, if_neg hd]
        exact ih

/-- The insert-transaction invariant: starting from a state whose rows for
`docId` are exactly the processed prefix, folding the remaining fields in
yields exactly all rows, provided the field names are distinct. -/
theorem rowsFor_idxInsertFields (docId : String) :
    ∀ (fields done : List (String × String)) (acc : List IdxRow),
      rowsFor acc docId = done.map (mkIdxRow docId) →
      ((done ++ fields).map Prod.fst).Nodup →
      rowsFor (idxInsertFields acc docId fields) docId
        = (done ++ fields).map (mkIdxRow docId)
  | [], done, acc, hacc, _ => by simpa [idxInsertFields] using hacc
  | f :: fs, done, acc, hacc, hnd => by
      have hstep :
          rowsFor (idxInsertOrReplace acc (mkIdxRow docId f)) docId
            = (done ++ [f]).map (mkIdxRow docId) := by
        unfold idxInsertOrReplace
        rw [rowsFor_append, rowsFor_idxRemoveConflicts, hacc]
        have hne : ∀ g ∈ done, g.1 ≠ f.1 := by
          intro g hg hgf
          have hmap := hnd
          rw [List.map_append, List.nodup_append] at hmap
          exact hmap.2.2 (List.mem_map.mpr ⟨g, hg, rfl⟩) (by simp [hgf])
        rw [idxRemoveConflicts_map_mkIdxRow docId done f hne]
        simp [rowsFor, mkIdxRow]
      have hnd' : ((done ++ [f] ++ fs).map Prod.fst).Nodup := by
        simpa [List.append_assoc] using hnd
      have := rowsFor_idxInsertFields docId fs (done ++ [f])
        (idxInsertOrReplace acc (mkIdxRow docId f)) hstep hnd'
      simpa [idxInsertFields, List.append_assoc] using this

/-- C8 amended: the replacement is *not* atomic — `removeDocument` commits
outside the insert transaction, so `addDocument` passes through an
observable state in which the document has no rows at all; the delete
touches no other document, and the insert transaction then (for distinct
extracted field names) produces exactly the new row set. -/
theorem c8_amended_delete_outside_transaction (rows : List IdxRow)
    (docId : String) (fields : List (String × String))
    (hnd : (fields.map Prod.fst).Nodup) :
    rowsFor (idxDeleteDoc rows docId) docId = [] ∧
    (∀ d, d ≠ docId → rowsFor (idxDeleteDoc rows docId) d = rowsFor rows d) ∧
    rowsFor (idxInsertFields (idxDeleteDoc rows docId) docId fields) docId
      = fields.map (mkIdxRow docId) := by
  refine ⟨?_, ?_, ?_⟩
  · induction rows with
    | nil => rfl
    | cons r rest ih =>
        by_cases hd : r.document_id = docId
        · simp only [idxDeleteDoc, if_pos hd, ih]
        · simp only [idxDeleteDoc, if_neg hd, rowsFor, if_neg hd, ih]
  · intro d hd
    induction rows with
    | nil => rfl
    | cons r rest ih =>
        by_cases hdoc : r.document_id = docId
        · have hrd : r.document_id ≠ d := fun hh => hd (hh.symm.trans hdoc)
          simp only [idxDeleteDoc, if_pos hdoc, rowsFor, if_neg hrd]
          exact ih
        · by_cases hrd : r.document_id = d
          · simp only [idxDeleteDoc, if_neg hdoc, rowsFor, if_pos hrd]
            exact congrArg (r :: ·) ih
          · simp only [idxDeleteDoc, if_neg hdoc, rowsFor, if_neg hrd]
            exact ih
  · have hbase : rowsFor (idxDeleteDoc rows docId) docId = [] := by
      induction rows with
      | nil => rfl
      | cons r rest ih =>
          by_cases hd : r.document_id = docId
          · simp only [idxDeleteDoc, if_pos hd, ih]
          · simp only [idxDeleteDoc, if_neg hd, rowsFor, if_neg hd, ih]
    have := rowsFor_idxInsertFields docId fields []
      (idxDeleteDoc rows docId) (by simpa using hbase) (by simpa using hnd)
    simpa using this

/-- Witness for the amended C8: two documents, updating `"d"` with two
fields. -/
theorem c8_amended_delete_outside_transaction_witness :
    ((([("a", "2"), ("b", "3")] : List (String × String)).map
        Prod.fst).Nodup) ∧
    (rowsFor (idxDeleteDoc [⟨"d:a", "d", "a", "1"⟩, ⟨"e:b", "e", "b", "9"⟩]
        "d") "d" = [] ∧
     (∀ d, d ≠ "d" →
       rowsFor (idxDeleteDoc [⟨"d:a", "d", "a", "1"⟩, ⟨"e:b", "e", "b", "9"⟩]
           "d") d
         = rowsFor [⟨"d:a", "d", "a", "1"⟩, ⟨"e:b", "e", "b", "9"⟩] d) ∧
     rowsFor (idxInsertFields
        (idxDeleteDoc [⟨"d:a", "d", "a", "1"⟩, ⟨"e:b", "e", "b", "9"⟩] "d")
        "d" [("a", "2"), ("b", "3")]) "d"
       = [("a", "2"), ("b", "3")].map (mkIdxRow "d")) :=
  ⟨by decide,
   c8_amended_delete_outside_transaction
     [⟨"d:a", "d", "a", "1"⟩, ⟨"e:b", "e", "b", "9"⟩] "d"
     [("a", "2"), ("b", "3")] (by decide)⟩

/-! ## Claims C4 and C5 — parallel strategy and late fusion
(`src/json-rag/core/query-engine-enhanced.js` lines 183–220 and 321–357)

`parallelStrategy` collects up to three result lists (`structural`, `fts`,
`semantic`; a source that is not dispatched contributes nothing) and hands
them to `fuseResults`.  `fuseResults` folds each list into a `Map` keyed by
`doc.id`: the doc at index `i` of a list of length `n` adds
`w · (1 − i/n)` to its running score (`weights[source] || 0.33` — the
fallback is unreachable for the three keys built by `parallelStrategy`, and
`request.hybrid` is a string, so the defaults 0.3 / 0.3 / 0.4 always
apply).  The map's values are then sorted by fused score descending and
returned; result lists are embedded as lists of `doc.id`s. -/

inductive FuseSource
  | structural
  | fts
  | semantic
  deriving DecidableEq, Repr

/-- The default fusion weights. -/
def sourceWeight : FuseSource → ℚ
  | FuseSource.structural => 3 / 10
  | FuseSource.fts => 3 / 10
  | FuseSource.semantic => 2 / 5

/-- The fused `Map` in insertion order: `doc_id ↦ (fusedScore, sources)`. -/
abbrev FusedMap := List (String × ℚ × List FuseSource)

/-- One `results.forEach` iteration body. -/
def bumpFused (m : FusedMap) (src : FuseSource) (id : String) (s : ℚ) :
    FusedMap :=
  match mget m id with
  | some pr => mset m id (pr.1 + s, pr.2 ++ [src])
  | none => m ++ [(id, s, [src])]

/-- Folding one result list into the map (`i` is the current index,
`total` the length of the whole list). -/
def fuseList (src : FuseSource) (w : ℚ) (total : ℕ) :
    ℕ → List String → FusedMap → FusedMap
  | _, [], m => m
  | i, d :: ds, m =>
      fuseList src w total (i + 1) ds
        (bumpFused m src d (w * (1 - (i : ℚ) / (total : ℚ))))

/-- One entry of `resultSets` (absent when the source was not
dispatched). -/
def fuseSource (src : FuseSource) (o : Option (List String)) (m : FusedMap) :
    FusedMap :=
  match o with
  | none => m
  | some l => fuseList src (sourceWeight src) l.length 0 l m

/-- The fused map built by `fuseResults` before sorting. -/
def fusedMapOf (structural fts semantic : Option (List String)) : FusedMap :=
  fuseSource FuseSource.semantic semantic
    (fuseSource FuseSource.fts fts
      (fuseSource FuseSource.structural structural []))

/-- `fuseResults`: map values sorted by `fusedScore` descending. -/
def fuseResults (structural fts semantic : Option (List String)) : FusedMap :=
  sortDesc (fun e => e.2.1) (fusedMapOf structural fts semantic)

/-- `parallelStrategy`: dispatch, fuse, return.  The request's `limit` is
never consulted on this path. -/
def parallelStrategy (structural fts semantic : Option (List String))
    (_limit : ℕ) : FusedMap :=
  fuseResults structural fts semantic

/-- The fused score of a `doc_id` (0 when absent). -/
def fusedScoreOf (m : FusedMap) (id : String) : ℚ :=
  match mget m id with
  | some pr => pr.1
  | none => 0

/-- The accumulated contribution of one result list, summed over every
occurrence of the `doc_id` (as the code does). -/
def rankContrib (w : ℚ) (total : ℕ) : ℕ → List String → String → ℚ
  | _, [], _ => 0
  | i, d :: ds, id =>
      (if d = id then w * (1 - (i : ℚ) / (total : ℚ)) else 0) +
        rankContrib w total (i + 1) ds id

/-- The 0-based rank of the first occurrence. -/
def rankOf : List String → String → ℕ
  | [], _ => 0
  | d :: ds, id => if d = id then 0 else rankOf ds id + 1

/-- The claim's per-source term: `w · (1 − i/|L|)` at the doc's rank `i`,
0 when the source is absent or does not contain the doc. -/
def fusedContribAt (w : ℚ) (o : Option (List String)) (id : String) : ℚ :=
  match o with
  | none => 0
  | some l =>
      if id ∈ l then w * (1 - (rankOf l id : ℚ) / (l.length : ℚ)) else 0

theorem mget_append_single {K V : Type} [DecidableEq K] (m : List (K × V))
    (k k' : K) (v : V) :
    mget (m ++ [(k, v)]) k'
      = match mget m k' with
        | some w => some w
        | none => if k = k' then some v else none := by
  induction m with
  | nil => simp [mget]
  | cons q rest ih =>
      obtain ⟨qk, qv⟩ := q
      by_cases h : qk = k'
      · simp [mget, h]
      · simp [mget, h, ih]

theorem mget_none_not_mem_keys {K V : Type} [DecidableEq K]
    {m : List (K × V)} {k : K} (h : mget m k = none) :
    k ∉ m.map Prod.fst := by
  intro hk
  rcases List.mem_map.mp hk with ⟨p, hp, hpk⟩
  have := mget_isSome_of_mem hp
  rw [hpk, h] at this
  cases this

theorem fusedScoreOf_bumpFused (m : FusedMap) (src : FuseSource)
    (id : String) (s : ℚ) (id' : String) :
    fusedScoreOf (bumpFused m src id s) id'
      = fusedScoreOf m id' + (if id = id' then s else 0) := by
  unfold bumpFused
  cases hm : mget m id with
  | some pr =>
      unfold fusedScoreOf
      rw [mget_mset]
      by_cases h : id = id'
      · subst h
        rw [if_pos rfl, if_pos rfl, hm]
      · rw [if_neg h, if_neg h, add_zero]
  | none =>
      unfold fusedScoreOf
      rw [mget_append_single]
      cases hm' : mget m id' with
      | some pr' =>
          have h : id ≠ id' := by
            intro hh
            rw [hh, hm'] at hm
            cases hm
          simp [if_neg h]
      | none =>
          by_cases h : id = id'
          · simp [if_pos h]
          · simp [if_neg h]

theorem fusedScoreOf_fuseList (src : FuseSource) (w : ℚ) (total : ℕ) :
    ∀ (l : List String) (i : ℕ) (m : FusedMap) (id : String),
      fusedScoreOf (fuseList src w total i l m) id
        = fusedScoreOf m id + rankContrib w total i l id
  | [], i, m, id => by simp [fuseList, rankContrib]
  | d :: ds, i, m, id => by
      simp only [fuseList, rankContrib]
      rw [fusedScoreOf_fuseList src w total ds (i + 1) _ id,
        fusedScoreOf_bumpFused, add_assoc]

theorem rankContrib_zero_of_not_mem (w : ℚ) (total : ℕ) :
    ∀ (l : List String) (i : ℕ) (id : String), id ∉ l →
      rankContrib w total i l id = 0
  | [], _, _, _ => rfl
  | d :: ds, i, id, h => by
      have hd : d ≠ id := fun hh => h (hh ▸ List.mem_cons_self _ _)
      have hds : id ∉ ds := fun hh => h (List.mem_cons_of_mem _ hh)
      rw [rankContrib, if_neg hd,
        rankContrib_zero_of_not_mem w total ds (i + 1) id hds, add_zero]

theorem rankContrib_eq_of_nodup (w : ℚ) (total : ℕ) :
    ∀ (l : List String) (i : ℕ) (id : String), l.Nodup → id ∈ l →
      rankContrib w total i l id
        = w * (1 - ((i + rankOf l id : ℕ) : ℚ) / (total : ℚ))
  | [], _, _, _, hmem => absurd hmem (List.not_mem_nil _)
  | d :: ds, i, id, hnd, hmem => by
      rcases List.pairwise_cons.mp hnd with ⟨hd, hds⟩
      by_cases h : d = id
      · subst h
        have hnot : d ∉ ds := fun hh => (hd d hh) rfl
        rw [rankContrib, if_pos rfl, rankOf, if_pos rfl,
          rankContrib_zero_of_not_mem w total ds (i + 1) d hnot, add_zero,
          Nat.add_zero]
      · have hmem' : id ∈ ds := by
          rcases List.mem_cons.mp hmem with hh | hh
          · exact absurd hh.symm h
          · exact hh
        rw [rankContrib, if_neg h, rankOf, if_neg h,
          rankContrib_eq_of_nodup w total ds (i + 1) id hds hmem', zero_add]
        have : i + (rankOf ds id + 1) = i + 1 + rankOf ds id := by omega
        rw [this]

theorem rankOf_lt_length_of_mem :
    ∀ (l : List String) (id : String), id ∈ l → rankOf l id < l.length
  | [], _, hmem => absurd hmem (List.not_mem_nil _)
  | d :: ds, id, hmem => by
      by_cases h : d = id
      · simp [rankOf, h]
      · have hmem' : id ∈ ds := by
          rcases List.mem_cons.mp hmem with hh | hh
          · exact absurd hh.symm h
          · exact hh
        simp only [rankOf, if_neg h, List.length_cons]
        exact Nat.succ_lt_succ (rankOf_lt_length_of_mem ds id hmem')

theorem fusedContribAt_bounds (w : ℚ) (o : Option (List String))
    (id : String) (hw : 0 ≤ w) :
    0 ≤ fusedContribAt w o id ∧ fusedContribAt w o id ≤ w := by
  cases o with
  | none => simp [fusedContribAt, hw]
  | some l =>
      unfold fusedContribAt
      dsimp only
      by_cases h : id ∈ l
      · rw [if_pos h]
        have hlen : (0 : ℚ) < (l.length : ℚ) := by
          have := List.length_pos.mpr (List.ne_nil_of_mem h)
          exact_mod_cast this
        have hrank : (rankOf l id : ℚ) / (l.length : ℚ) ≤ 1 := by
          rw [div_le_one hlen]
          exact_mod_cast Nat.le_of_lt (rankOf_lt_length_of_mem l id h)
        have hrank0 : (0 : ℚ) ≤ (rankOf l id : ℚ) / (l.length : ℚ) :=
          div_nonneg (by positivity) (le_of_lt hlen)
        constructor
        · exact mul_nonneg hw (by linarith)
        · calc w * (1 - (rankOf l id : ℚ) / (l.length : ℚ))
              ≤ w * 1 := by
                apply mul_le_mul_of_nonneg_left _ hw
                linarith
          _ = w := mul_one w
      · rw [if_neg h]
        exact ⟨le_refl 0, hw⟩

/-- The relation between the code's accumulated contribution and the
claim's closed form, given well-defined ranks. -/
theorem fusedScoreOf_fuseSource_contrib (src : FuseSource)
    (o : Option (List String)) (m : FusedMap) (id : String)
    (hnd : (o.getD []).Nodup) :
    fusedScoreOf (fuseSource src o m) id
      = fusedScoreOf m id + fusedContribAt (sourceWeight src) o id := by
  cases o with
  | none => simp [fuseSource, fusedContribAt]
  | some l =>
      rw [fuseSource, fusedScoreOf_fuseList]
      congr 1
      simp only [Option.getD] at hnd
      unfold fusedContribAt
      dsimp only
      by_cases h : id ∈ l
      · rw [if_pos h, rankContrib_eq_of_nodup _ _ l 0 _ hnd h]
        norm_num
      · rw [if_neg h, rankContrib_zero_of_not_mem _ _ l 0 _ h]

theorem keys_bumpFused_nodup {m : FusedMap} (src : FuseSource) (id : String)
    (s : ℚ) (hnd : (m.map Prod.fst).Nodup) :
    ((bumpFused m src id s).map Prod.fst).Nodup := by
  unfold bumpFused
  cases hm : mget m id with
  | some pr => exact keys_mset_nodup _ _ hnd
  | none =>
      rw [List.map_append]
      simp only [List.map_cons, List.map_nil]
      rw [List.nodup_append]
      refine ⟨hnd, List.nodup_singleton _, ?_⟩
      intro a ha hb
      rw [List.mem_singleton] at hb
      subst hb
      exact mget_none_not_mem_keys hm ha

theorem keys_fuseList_nodup (src : FuseSource) (w : ℚ) (total : ℕ) :
    ∀ (l : List String) (i : ℕ) {m : FusedMap},
      (m.map Prod.fst).Nodup →
      ((fuseList src w total i l m).map Prod.fst).Nodup
  | [], _, _, hnd => hnd
  | d :: ds, i, _m, hnd =>
      keys_fuseList_nodup src w total ds (i + 1)
        (keys_bumpFused_nodup src d _ hnd)

theorem keys_fuseSource_nodup (src : FuseSource)
    (o : Option (List String)) {m : FusedMap}
    (hnd : (m.map Prod.fst).Nodup) :
    ((fuseSource src o m).map Prod.fst).Nodup := by
  cases o with
  | none => exact hnd
  | some l => exact keys_fuseList_nodup _ _ _ l 0 hnd

theorem keys_fusedMapOf_nodup (structural fts semantic :
    Option (List String)) :
    ((fusedMapOf structural fts semantic).map Prod.fst).Nodup := by
  unfold fusedMapOf
  exact keys_fuseSource_nodup _ _
    (keys_fuseSource_nodup _ _ (keys_fuseSource_nodup _ _ List.nodup_nil))

theorem mem_insertDesc_iff {α : Type} (key : α → ℚ) (x b : α) (l : List α) :
    b ∈ insertDesc key x l ↔ b = x ∨ b ∈ l :=
  mem_insertDesc key x b l

theorem mem_sortDesc {α : Type} (key : α → ℚ) (b : α) :
    ∀ l : List α, b ∈ sortDesc key l ↔ b ∈ l
  | [] => Iff.rfl
  | x :: xs => by
      rw [sortDesc, mem_insertDesc, mem_sortDesc key b xs, List.mem_cons]

/-- C4: every document returned by the parallel strategy's fusion carries
the score `Σ_s w_s · (1 − i/|L_s|)` over the sources containing it (with
default weights 0.3, 0.3, 0.4), and that score lies within
`[0, w_structural + w_fts + w_semantic]`. -/
theorem c4_fusion_score_formula_and_bounds
    (structural fts semantic : Option (List String))
    (hs : (structural.getD []).Nodup) (hf : (fts.getD []).Nodup)
    (hm : (semantic.getD []).Nodup) (e : String × ℚ × List FuseSource)
    (he : e ∈ fuseResults structural fts semantic) :
    e.2.1 = fusedContribAt (3 / 10) structural e.1 +
        fusedContribAt (3 / 10) fts e.1 +
        fusedContribAt (2 / 5) semantic e.1 ∧
    0 ≤ e.2.1 ∧ e.2.1 ≤ 3 / 10 + 3 / 10 + 2 / 5 := by
  have hmem : e ∈ fusedMapOf structural fts semantic :=
    (mem_sortDesc _ e _).mp he
  have hget : mget (fusedMapOf structural fts semantic) e.1 = some e.2 :=
    mget_eq_some_of_mem_nodup hmem (keys_fusedMapOf_nodup _ _ _)
  have hscore : fusedScoreOf (fusedMapOf structural fts semantic) e.1
      = e.2.1 := by
    unfold fusedScoreOf
    rw [hget]
  have hformula : fusedScoreOf (fusedMapOf structural fts semantic) e.1
      = fusedContribAt (3 / 10) structural e.1 +
          fusedContribAt (3 / 10) fts e.1 +
          fusedContribAt (2 / 5) semantic e.1 := by
    unfold fusedMapOf
    rw [fusedScoreOf_fuseSource_contrib _ _ _ _ hm,
      fusedScoreOf_fuseSource_contrib _ _ _ _ hf,
      fusedScoreOf_fuseSource_contrib _ _ _ _ hs]
    have hz : fusedScoreOf ([] : FusedMap) e.1 = 0 := rfl
    rw [hz, zero_add]
    simp only [sourceWeight]
  have hb1 := fusedContribAt_bounds (3 / 10) structural e.1 (by norm_num)
  have hb2 := fusedContribAt_bounds (3 / 10) fts e.1 (by norm_num)
  have hb3 := fusedContribAt_bounds (2 / 5) semantic e.1 (by norm_num)
  refine ⟨by rw [← hscore, hformula], ?_, ?_⟩
  · rw [← hscore, hformula]
    linarith [hb1.1, hb2.1, hb3.1]
  · rw [← hscore, hformula]
    linarith [hb1.2, hb2.2, hb3.2]

/-- Witness for C4: one structural hit at rank 0, the other sources not
dispatched; the fused score is `0.3 · (1 − 0/1) = 0.3`. -/
theorem c4_fusion_score_formula_and_bounds_witness :
    ((some ["d"] : Option (List String)).getD []).Nodup ∧
    ((none : Option (List String)).getD []).Nodup ∧
    (("d", (3 / 10 : ℚ), [FuseSource.structural])
        ∈ fuseResults (some ["d"]) none none) ∧
    ((3 / 10 : ℚ) = fusedContribAt (3 / 10) (some ["d"]) "d" +
        fusedContribAt (3 / 10) none "d" +
        fusedContribAt (2 / 5) none "d" ∧
     (0 : ℚ) ≤ 3 / 10 ∧ (3 / 10 : ℚ) ≤ 3 / 10 + 3 / 10 + 2 / 5) :=
  ⟨by decide, by decide,
   by simp [fuseResults, fusedMapOf, fuseSource, fuseList, bumpFused, mget,
      sortDesc, insertDesc, sourceWeight],
   c4_fusion_score_formula_and_bounds (some ["d"]) none none (by decide)
     (by decide) (by decide) ("d", (3 / 10 : ℚ), [FuseSource.structural])
     (by simp [fuseResults, fusedMapOf, fuseSource, fuseList, bumpFused,
        mget, sortDesc, insertDesc, sourceWeight])⟩

theorem perm_insertDesc {α : Type} (key : α → ℚ) (x : α) (l : List α) :
    List.Perm (insertDesc key x l) (x :: l) := by
  induction l with
  | nil => simp [insertDesc]
  | cons y ys ih =>
      by_cases h : key y ≤ key x
      · simp [insertDesc, h]
      · simp only [insertDesc, if_neg h]
        exact (ih.cons y).trans (List.Perm.swap x y ys)

theorem perm_sortDesc {α : Type} (key : α → ℚ) (l : List α) :
    List.Perm (sortDesc key l) l := by
  induction l with
  | nil => simp [sortDesc]
  | cons x xs ih =>
      exact (perm_insertDesc key x (sortDesc key xs)).trans (ih.cons x)

/-- C5 counterexample: two structural hits and `limit = 1` — the parallel
strategy returns both fused documents; neither `fuseResults` nor
`parallelStrategy` (nor `search` around them) truncates to the request's
limit, refuting the claimed `length ≤ limit`. -/
theorem c5_counterexample :
    (parallelStrategy (some ["d1", "d2"]) none none 1).length = 2 ∧
    ¬(parallelStrategy (some ["d1", "d2"]) none none 1).length ≤ 1 := by
  have hlen : (parallelStrategy (some ["d1", "d2"]) none none 1).length
      = (fusedMapOf (some ["d1", "d2"]) none none).length :=
    (perm_sortDesc _ _).length_eq
  have hmap : (fusedMapOf (some ["d1", "d2"]) none none).length = 2 := by
    simp [fusedMapOf, fuseSource, fuseList, bumpFused, mget, sourceWeight]
  rw [hlen, hmap]
  omega

/-- C5 amended: the parallel strategy's result is sorted by fused score in
descending order, but it is *not* truncated: the output is independent of
the request's `limit` and always has one entry per fused document. -/
theorem c5_amended_sorted_untruncated
    (structural fts semantic : Option (List String)) (limit limit' : ℕ) :
    (parallelStrategy structural fts semantic limit).Pairwise
        (fun a b => b.2.1 ≤ a.2.1) ∧
    parallelStrategy structural fts semantic limit
      = parallelStrategy structural fts semantic limit' ∧
    (parallelStrategy structural fts semantic limit).length
      = (fusedMapOf structural fts semantic).length :=
  ⟨sortDesc_pairwise _ _, rfl, (perm_sortDesc _ _).length_eq⟩

end RagCore
